import Mathlib

/-!
Verification development for the gitflow-rs branch-relationship engine.

The definitions below are a shallow embedding of the Rust sources:
`src/git/branch.rs` (branch-tree detection strategies and tree utilities),
`src/commands/cascade.rs` (the cascading merge orchestrator),
`src/git/merge.rs` (single-edge merge execution) and
`src/configuration/settings.rs` (persisted configuration).

Modelling conventions:
* commits are identified by `Nat` ids inside an explicit commit graph;
* branches are pairs of an optional name (`none` models a non-UTF-8 name,
  mirroring `git2::Branch::name` returning `Ok(None)`) and a tip commit id;
* `HashMap<String, Vec<String>>` is modelled as an ordered association list,
  with `treePush` mirroring `entry().or_insert_with(Vec::new).push(..)`;
* fallible Rust functions returning `Result` become `Except GitFlowErrorM`;
* the recursive revwalk and cascade traversals take an explicit fuel
  argument; the fuel chosen by the embedding is proved sufficient where a
  claim depends on it.
-/

namespace GitFlow

/-- Error taxonomy from `src/error.rs`, restricted to the variants the
embedded functions construct. -/
inductive GitFlowErrorM where
  | git (msg : String)
  | aborted (msg : String)
  | config (msg : String)
  | branchNotFound (name : String)
deriving DecidableEq, Repr

/-- Message of `git2::Error::from_str("Invalid UTF-8 in branch name")`. -/
def invalidUtf8Msg : String := "Invalid UTF-8 in branch name"

/-- Message used when `revparse_single` fails to resolve a name. -/
def revparseFailMsg : String := "revparse failed"

/-- A branch tree: mapping from parent branch name to list of child names
(`HashMap<String, Vec<String>>` in the source). -/
abbrev BranchTree := List (String × List String)

/-- The children recorded for branch `b` (empty when `b` is not a key). -/
def childrenOf (tree : BranchTree) (b : String) : List String :=
  match tree.find? (fun p => p.1 == b) with
  | some p => p.2
  | none => []

/-- `tree.entry(parentKey).or_insert_with(Vec::new).push(child)`. -/
def treePush (tree : BranchTree) (parentKey child : String) : BranchTree :=
  match tree with
  | [] => [(parentKey, [child])]
  | (k, cs) :: rest =>
    if k = parentKey then (k, cs ++ [child]) :: rest
    else (k, cs) :: treePush rest parentKey child

/-- `branch_tree.values().flatten()` collected into one list. -/
def allChildrenOf (tree : BranchTree) : List String :=
  tree.foldl (fun acc p => acc ++ p.2) []

/-- `find_root_branches` from `src/git/branch.rs:462`: keys of the tree that
do not occur in any children list. -/
def find_root_branches (tree : BranchTree) : List String :=
  (tree.map (fun p => p.1)).filter (fun b => !((allChildrenOf tree).contains b))

/-- The repository as seen by the detection strategies: a finite commit
graph plus the local branch list.  A branch name of `none` models a
non-UTF-8 branch name. -/
structure GitRepo where
  commits : List Nat
  parentsOf : Nat → List Nat
  timeOf : Nat → Int
  branches : List (Option String × Nat)

/-- `repo.revparse_single(name)?.peel_to_commit()?`: resolve a branch name
to its tip commit id. -/
def revparse (repo : GitRepo) (s : String) : Option Nat :=
  (repo.branches.find? (fun b => b.1 == some s)).map (fun b => b.2)

/-- One revwalk: explore the ancestry graph backwards from the frontier,
accumulating visited commit ids.  Fuel-bounded model of `repo.revwalk()`. -/
def walk (repo : GitRepo) : Nat → List Nat → List Nat → List Nat
  | 0, _, visited => visited
  | _ + 1, [], visited => visited
  | fuel + 1, c :: rest, visited =>
    if c ∈ visited then walk repo fuel rest visited
    else walk repo fuel (repo.parentsOf c ++ rest) (c :: visited)

/-- Fuel sufficient to exhaust any revwalk over the repository graph. -/
def walkFuel (repo : GitRepo) : Nat :=
  (repo.commits.map (fun c => (repo.parentsOf c).length)).sum
    + 2 * repo.commits.length + 2

/-- `is_descendant_of` from `src/git/branch.rs:329`: identical commits are
answered `false` before the revwalk; otherwise walk the ancestry of
`commit` and report whether `potentialAncestor` appears. -/
def is_descendant_of (repo : GitRepo) (commit potentialAncestor : Nat) : Bool :=
  if commit = potentialAncestor then false
  else (walk repo (walkFuel repo) [commit] []).contains potentialAncestor

/-- `repo.merge_base(c1, c2)`: some common ancestor when one exists. -/
def merge_base (repo : GitRepo) (c1 c2 : Nat) : Option Nat :=
  (walk repo (walkFuel repo) [c1] []).find?
    (fun a => (walk repo (walkFuel repo) [c2] []).contains a)

/-- `are_branches_related` from `src/git/branch.rs:360`. -/
def are_branches_related (repo : GitRepo) (branch1 branch2 : String) :
    Except GitFlowErrorM Bool :=
  match revparse repo branch1 with
  | none => .error (.git revparseFailMsg)
  | some c1 =>
    match revparse repo branch2 with
    | none => .error (.git revparseFailMsg)
    | some c2 =>
      if is_descendant_of repo c1 c2 || is_descendant_of repo c2 c1 then .ok true
      else .ok (merge_base repo c1 c2).isSome

theorem mem_allChildrenOf_aux (tree : BranchTree) (acc : List String) (x : String) :
    x ∈ tree.foldl (fun acc p => acc ++ p.2) acc ↔ x ∈ acc ∨ ∃ p ∈ tree, x ∈ p.2 := by
  induction tree generalizing acc with
  | nil => simp
  | cons hd tl ih =>
    simp only [List.foldl_cons, ih, List.mem_append, List.mem_cons]
    constructor
    · rintro (⟨h | h⟩ | ⟨p, hp, hx⟩)
      · exact Or.inl h
      · exact Or.inr ⟨hd, Or.inl rfl, h⟩
      · exact Or.inr ⟨p, Or.inr hp, hx⟩
    · rintro (h | ⟨p, hp | hp, hx⟩)
      · exact Or.inl (Or.inl h)
      · exact Or.inl (Or.inr (hp ▸ hx))
      · exact Or.inr ⟨p, hp, hx⟩

theorem mem_allChildrenOf (tree : BranchTree) (x : String) :
    x ∈ allChildrenOf tree ↔ ∃ p ∈ tree, x ∈ p.2 := by
  simpa using mem_allChildrenOf_aux tree [] x

/-- C8: `find_roots(T)` returns exactly the keys of `T` that appear in no
children list: soundness (every returned name is a key occurring in no
children list) and completeness (every such key is returned). -/
theorem find_root_branches_spec (tree : BranchTree) (r : String) :
    r ∈ find_root_branches tree ↔
      (r ∈ tree.map (fun p => p.1) ∧ ∀ p ∈ tree, r ∉ p.2) := by
  simp only [find_root_branches, List.mem_filter, List.contains, Bool.not_eq_eq_eq_not,
    Bool.not_true, List.elem_eq_mem, decide_eq_false_iff_not, mem_allChildrenOf]
  constructor
  · rintro ⟨hk, hnc⟩
    exact ⟨hk, fun p hp hx => hnc ⟨p, hp, hx⟩⟩
  · rintro ⟨hk, hnc⟩
    exact ⟨hk, fun ⟨p, hp, hx⟩ => hnc p hp hx⟩

/-- C9: a commit is never reported as its own descendant: the identity
check in `is_descendant_of` precedes the ancestry walk. -/
theorem is_descendant_of_irrefl (repo : GitRepo) (c : Nat) :
    is_descendant_of repo c c = false := by
  simp [is_descendant_of]

/-- The four detection strategies (`BranchRelationStrategy` in
`src/git/branch.rs:20`). -/
inductive BranchRelationStrategy where
  | commitHistory
  | creationTime
  | defaultRoot
  | manual
deriving DecidableEq, Repr

/-- The configuration fields consumed by detection
(`src/configuration/settings.rs:28`). -/
structure Config where
  default_base_branch : String
  branch_relationships : BranchTree
  branch_detection_strategy : BranchRelationStrategy

/-- `Config::add_branch_relationship` (`src/configuration/settings.rs:197`):
push the child under the parent entry, no validation.  Persisting to disk is
out of the model. -/
def add_branch_relationship (config : Config) (parent child : String) : Config :=
  { config with branch_relationships := treePush config.branch_relationships parent child }

/-- First pass of `get_branch_tree_by_history`: collect branch names,
failing on the first branch whose name is not valid UTF-8. -/
def collectNames : List (Option String × Nat) → Except GitFlowErrorM (List String)
  | [] => .ok []
  | (none, _) :: _ => .error (.git invalidUtf8Msg)
  | (some n, _) :: rest =>
    match collectNames rest with
    | .error e => .error e
    | .ok ns => .ok (n :: ns)

/-- Inner loop of `is_direct_parent_child` (`src/git/branch.rs:307`): return
`false` as soon as some third branch lies strictly between parent and child. -/
def idpcLoop (repo : GitRepo) (parent child : String) (parentCommit childCommit : Nat) :
    List String → Except GitFlowErrorM Bool
  | [] => .ok true
  | other :: rest =>
    if other ≠ parent ∧ other ≠ child then
      match revparse repo other with
      | none => .error (.git revparseFailMsg)
      | some otherCommit =>
        if is_descendant_of repo otherCommit parentCommit
            && is_descendant_of repo childCommit otherCommit then
          .ok false
        else idpcLoop repo parent child parentCommit childCommit rest
    else idpcLoop repo parent child parentCommit childCommit rest

/-- `is_direct_parent_child` from `src/git/branch.rs:297`. -/
def is_direct_parent_child (repo : GitRepo) (all_branches : List String)
    (parent child : String) : Except GitFlowErrorM Bool :=
  match revparse repo parent with
  | none => .error (.git revparseFailMsg)
  | some parentCommit =>
    match revparse repo child with
    | none => .error (.git revparseFailMsg)
    | some childCommit => idpcLoop repo parent child parentCommit childCommit all_branches

/-- Inner loop of the second pass of `get_branch_tree_by_history`
(`src/git/branch.rs:178`): for a fixed `bname`, consider every other branch;
record the edge when the other branch is a descendant AND the (short-circuit)
`!is_direct_parent_child` test passes — exactly as the source has it. -/
def historyInner (repo : GitRepo) (all : List String) (bname : String) (bcommit : Nat) :
    List String → BranchTree → Except GitFlowErrorM BranchTree
  | [], tree => .ok tree
  | other :: rest, tree =>
    if bname = other then historyInner repo all bname bcommit rest tree
    else
      match revparse repo other with
      | none => .error (.git revparseFailMsg)
      | some otherCommit =>
        if is_descendant_of repo otherCommit bcommit then
          match is_direct_parent_child repo all bname other with
          | .error e => .error e
          | .ok direct =>
            if !direct then
              historyInner repo all bname bcommit rest (treePush tree bname other)
            else historyInner repo all bname bcommit rest tree
        else historyInner repo all bname bcommit rest tree

/-- Outer loop of the second pass of `get_branch_tree_by_history`. -/
def historyOuter (repo : GitRepo) (all : List String) :
    List String → BranchTree → Except GitFlowErrorM BranchTree
  | [], tree => .ok tree
  | bname :: rest, tree =>
    match revparse repo bname with
    | none => .error (.git revparseFailMsg)
    | some bcommit =>
      match historyInner repo all bname bcommit all tree with
      | .error e => .error e
      | .ok tree1 => historyOuter repo all rest tree1

/-- `get_branch_tree_by_history` from `src/git/branch.rs:158`. -/
def get_branch_tree_by_history (repo : GitRepo) : Except GitFlowErrorM BranchTree :=
  match collectNames repo.branches with
  | .error e => .error e
  | .ok all => historyOuter repo all all []

/-- One step of the branch/time collection loop of the creation-time
strategy (`src/git/branch.rs:211`): an invalid name is replaced by `""`
(`unwrap_or("")`); a branch whose name fails to resolve is skipped
(`if let Ok(commit) = get_first_commit_on_branch(..)`). -/
def branchTimesStep (repo : GitRepo) (acc : List (String × Int)) (b : Option String × Nat) :
    List (String × Int) :=
  match revparse repo (b.1.getD "") with
  | some tip => acc ++ [(b.1.getD "", repo.timeOf tip)]
  | none => acc

/-- Branch/time pairs for the creation-time strategy
(`src/git/branch.rs:210`). -/
def branchTimes (repo : GitRepo) : List (String × Int) :=
  repo.branches.foldl (branchTimesStep repo) []

/-- Stable insertion into a list sorted ascending by timestamp. -/
def insertByTime (x : String × Int) : List (String × Int) → List (String × Int)
  | [] => [x]
  | y :: ys => if y.2 ≤ x.2 then y :: insertByTime x ys else x :: y :: ys

/-- Stable ascending sort by timestamp, modelling
`branch_times.sort_by(|a, b| a.1.cmp(&b.1))` (Rust stable sort). -/
def sortByTime (l : List (String × Int)) : List (String × Int) :=
  l.foldl (fun acc x => insertByTime x acc) []

/-- The 30-day window (`60 * 60 * 24 * 30` seconds). -/
def thirtyDays : Int := 60 * 60 * 24 * 30

/-- Backward scan for a parent (`src/git/branch.rs:229`): walk the older
branches from nearest to farthest; accept the first that is within the time
window and related (short-circuit: relatedness only queried inside the
window). -/
def findParent (repo : GitRepo) (childName : String) (childTime : Int) :
    List (String × Int) → Except GitFlowErrorM (Option String)
  | [] => .ok none
  | p :: older =>
    if childTime - p.2 < thirtyDays then
      match are_branches_related repo p.1 childName with
      | .error e => .error e
      | .ok true => .ok (some p.1)
      | .ok false => findParent repo childName childTime older
    else findParent repo childName childTime older

/-- Main loop of `get_branch_tree_by_creation_time`: for each index `i ≥ 1`
of the sorted list, scan indices `i-1, …, 0` for a parent.  The explicit
fuel only bounds the iteration count; the strategy entry point passes
`sorted.length`, which covers every iteration of the source loop
`for i in 1..branch_times.len()`. -/
def ctLoop (repo : GitRepo) (sorted : List (String × Int)) :
    Nat → Nat → BranchTree → Except GitFlowErrorM BranchTree
  | 0, _, tree => .ok tree
  | fuel + 1, i, tree =>
    if h : i < sorted.length then
      match findParent repo (sorted.get ⟨i, h⟩).1 (sorted.get ⟨i, h⟩).2
          ((sorted.take i).reverse) with
      | .error e => .error e
      | .ok none => ctLoop repo sorted fuel (i + 1) tree
      | .ok (some p) => ctLoop repo sorted fuel (i + 1) (treePush tree p (sorted.get ⟨i, h⟩).1)
    else .ok tree

/-- `get_branch_tree_by_creation_time` from `src/git/branch.rs:205`. -/
def get_branch_tree_by_creation_time (repo : GitRepo) : Except GitFlowErrorM BranchTree :=
  ctLoop repo (sortByTime (branchTimes repo)) (sortByTime (branchTimes repo)).length 1 []

/-- `get_branch_tree_with_default_root` from `src/git/branch.rs:256`: empty
tree when the default branch does not exist; otherwise every other local
branch (an invalid name contributing `""` via `unwrap_or("")`) becomes a
child of the default branch. -/
def defaultRootStep (default_branch : String) (acc : List String) (b : Option String × Nat) :
    List String :=
  if b.1.getD "" ≠ default_branch then acc ++ [b.1.getD ""] else acc

def get_branch_tree_with_default_root (repo : GitRepo) (default_branch : String) :
    Except GitFlowErrorM BranchTree :=
  if (repo.branches.find? (fun b => b.1 == some default_branch)).isNone then .ok []
  else
    if (repo.branches.foldl (defaultRootStep default_branch) []).isEmpty then .ok []
    else .ok [(default_branch, repo.branches.foldl (defaultRootStep default_branch) [])]

/-- `get_branch_tree` dispatch from `src/git/branch.rs:136`. -/
def get_branch_tree (repo : GitRepo) (strategy : BranchRelationStrategy) (config : Config) :
    Except GitFlowErrorM BranchTree :=
  match strategy with
  | .commitHistory => get_branch_tree_by_history repo
  | .creationTime => get_branch_tree_by_creation_time repo
  | .defaultRoot => get_branch_tree_with_default_root repo config.default_base_branch
  | .manual => .ok config.branch_relationships

def bMain : String := "main"

def bFeatureA : String := "feature-a"

def bMid : String := "mid"

def bTop : String := "top"

/-- Two-branch repository: `feature-a`'s tip (commit 1) is a child commit of
`main`'s tip (commit 0); no other branch exists. -/
def repoPair : GitRepo where
  commits := [0, 1]
  parentsOf := fun c => if c = 1 then [0] else []
  timeOf := fun _ => 0
  branches := [(some bMain, 0), (some bFeatureA, 1)]

/-- Three-branch chain: `main` (commit 0) ← `mid` (commit 1) ← `top`
(commit 2), so `mid` lies strictly between `main` and `top`. -/
def repoChain : GitRepo where
  commits := [0, 1, 2]
  parentsOf := fun c => if c = 2 then [1] else if c = 1 then [0] else []
  timeOf := fun _ => 0
  branches := [(some bMain, 0), (some bMid, 1), (some bTop, 2)]

/-- C1 (code bug evidence): in `repoPair`, `feature-a` is a strict
descendant of `main` and no third branch lies between them
(`is_direct_parent_child` answers `true`), yet the CommitHistory strategy
returns an empty tree — the direct edge is missing.  In `repoChain` the
strategy instead records exactly the non-direct edge `main → top` (the one
with `mid` strictly between).  The `!` in
`is_descendant_of(..) && !is_direct_parent_child(..)` inverts the
documented directness filter. -/
theorem history_strategy_inverts_directness :
    is_descendant_of repoPair 1 0 = true ∧
    is_direct_parent_child repoPair [bMain, bFeatureA] bMain bFeatureA = .ok true ∧
    get_branch_tree_by_history repoPair = .ok [] ∧
    get_branch_tree_by_history repoChain = .ok [(bMain, [bTop])] := by
  refine ⟨by decide, by rfl, by rfl, by rfl⟩

def emptyName : String := ""

/-- Repository with one valid branch `main` (tip 0) and one branch whose
name is not valid UTF-8 (tip 1, a child commit of 0). -/
def repoInvalidName : GitRepo where
  commits := [0, 1]
  parentsOf := fun c => if c = 1 then [0] else []
  timeOf := fun c => (c : Int)
  branches := [(some bMain, 0), (none, 1)]

/-- C2 counterexample: `repoInvalidName` has a branch with an invalid name,
yet the DefaultRoot strategy succeeds — substituting the empty string as the
child name — and the CreationTime strategy succeeds, silently skipping the
branch.  The claim that every branch-enumerating strategy fails is false. -/
theorem invalid_branch_name_not_uniformly_fatal :
    ((none, 1) ∈ repoInvalidName.branches) ∧
    get_branch_tree_with_default_root repoInvalidName bMain = .ok [(bMain, [emptyName])] ∧
    get_branch_tree_by_creation_time repoInvalidName = .ok [] := by
  refine ⟨by decide, by rfl, by rfl⟩

theorem collectNames_error_of_invalid (l : List (Option String × Nat))
    (h : ∃ b ∈ l, b.1 = none) : collectNames l = .error (.git invalidUtf8Msg) := by
  induction l with
  | nil => simp at h
  | cons b rest ih =>
    obtain ⟨c, hc, hcn⟩ := h
    rcases b with ⟨bn, bt⟩
    cases bn with
    | none => rfl
    | some n =>
      have : ∃ b ∈ rest, b.1 = none := by
        rcases List.mem_cons.mp hc with h1 | h1
        · exact absurd (congrArg Prod.fst h1) (by simp [hcn])
        · exact ⟨c, h1, hcn⟩
      simp only [collectNames, ih this]

theorem branchTimes_revparse_aux (repo : GitRepo) (l : List (Option String × Nat)) :
    ∀ acc, (∀ p ∈ acc, (revparse repo p.1).isSome = true) →
      ∀ p ∈ l.foldl (branchTimesStep repo) acc, (revparse repo p.1).isSome = true := by
  induction l with
  | nil => intro acc hacc p hp; exact hacc p hp
  | cons b rest ih =>
    intro acc hacc p hp
    simp only [List.foldl_cons] at hp
    refine ih _ ?_ p hp
    intro q hq
    unfold branchTimesStep at hq
    rcases hrev : revparse repo (b.1.getD "") with _ | tip
    · rw [hrev] at hq; exact hacc q hq
    · rw [hrev] at hq
      rcases List.mem_append.mp hq with h1 | h1
      · exact hacc q h1
      · have : q = (b.1.getD "", repo.timeOf tip) := by simpa using h1
        rw [this]
        simp [hrev]

/-- Every pair collected by `branchTimes` has a resolvable name (the loop
only records a name after `revparse` succeeded). -/
theorem branchTimes_revparse (repo : GitRepo) :
    ∀ p ∈ branchTimes repo, (revparse repo p.1).isSome = true :=
  branchTimes_revparse_aux repo repo.branches [] (by simp)

theorem insertByTime_perm (x : String × Int) (l : List (String × Int)) :
    (insertByTime x l).Perm (x :: l) := by
  induction l with
  | nil => exact List.Perm.refl _
  | cons y ys ih =>
    unfold insertByTime
    by_cases h : y.2 ≤ x.2
    · simp only [if_pos h]
      exact ((ih.cons y).trans (List.Perm.swap x y ys))
    · simp only [if_neg h]
      exact List.Perm.refl _

theorem sortByTime_perm_aux (l : List (String × Int)) :
    ∀ acc, (l.foldl (fun acc x => insertByTime x acc) acc).Perm (acc ++ l) := by
  induction l with
  | nil => intro acc; simp
  | cons x xs ih =>
    intro acc
    simp only [List.foldl_cons]
    refine (ih (insertByTime x acc)).trans ?_
    refine (((insertByTime_perm x acc).append_right xs).trans ?_)
    exact List.perm_middle.symm

/-- `sortByTime` permutes its input. -/
theorem sortByTime_perm (l : List (String × Int)) : (sortByTime l).Perm l := by
  simpa using sortByTime_perm_aux l []

theorem are_branches_related_isOk (repo : GitRepo) (b1 b2 : String)
    (h1 : (revparse repo b1).isSome = true) (h2 : (revparse repo b2).isSome = true) :
    ∃ r, are_branches_related repo b1 b2 = .ok r := by
  unfold are_branches_related
  rcases hr1 : revparse repo b1 with _ | c1
  · rw [hr1] at h1; simp at h1
  · rcases hr2 : revparse repo b2 with _ | c2
    · rw [hr2] at h2; simp at h2
    · by_cases hd : (is_descendant_of repo c1 c2 || is_descendant_of repo c2 c1) = true
      · exact ⟨true, by simp [hd]⟩
      · exact ⟨(merge_base repo c1 c2).isSome, by simp [hd]⟩

theorem findParent_isOk (repo : GitRepo) (cname : String) (ctime : Int)
    (hc : (revparse repo cname).isSome = true) :
    ∀ scanned, (∀ p ∈ scanned, (revparse repo p.1).isSome = true) →
      ∃ r, findParent repo cname ctime scanned = .ok r := by
  intro scanned
  induction scanned with
  | nil => exact fun _ => ⟨none, rfl⟩
  | cons p older ih =>
    intro hs
    unfold findParent
    by_cases hw : ctime - p.2 < thirtyDays
    · simp only [if_pos hw]
      obtain ⟨r, hr⟩ := are_branches_related_isOk repo p.1 cname
        (hs p (List.mem_cons_self p older)) hc
      rw [hr]
      cases r
      · exact ih fun q hq => hs q (List.mem_cons_of_mem p hq)
      · exact ⟨some p.1, rfl⟩
    · simp only [if_neg hw]
      exact ih fun q hq => hs q (List.mem_cons_of_mem p hq)

theorem ctLoop_isOk (repo : GitRepo) (sorted : List (String × Int))
    (hs : ∀ p ∈ sorted, (revparse repo p.1).isSome = true) :
    ∀ fuel i tree, ∃ t, ctLoop repo sorted fuel i tree = .ok t := by
  intro fuel
  induction fuel with
  | zero => exact fun i tree => ⟨tree, rfl⟩
  | succ n ih =>
    intro i tree
    unfold ctLoop
    by_cases hi : i < sorted.length
    · simp only [dif_pos hi]
      have hmem : sorted.get ⟨i, hi⟩ ∈ sorted := List.get_mem sorted i hi
      obtain ⟨r, hr⟩ := findParent_isOk repo (sorted.get ⟨i, hi⟩).1 (sorted.get ⟨i, hi⟩).2
        (hs _ hmem) ((sorted.take i).reverse)
        (fun p hp => hs p (List.mem_of_mem_take (List.mem_reverse.mp hp)))
      rw [hr]
      cases r with
      | none => exact ih (i + 1) tree
      | some p => exact ih (i + 1) _
    · simp [hi]

/-- The CreationTime strategy never fails: a branch with an unresolvable
(in particular invalid) name is skipped during collection, and every
relatedness query it performs resolves names that already resolved once. -/
theorem get_branch_tree_by_creation_time_isOk (repo : GitRepo) :
    (get_branch_tree_by_creation_time repo).isOk = true := by
  unfold get_branch_tree_by_creation_time
  have hs : ∀ p ∈ sortByTime (branchTimes repo), (revparse repo p.1).isSome = true :=
    fun p hp => branchTimes_revparse repo p ((sortByTime_perm (branchTimes repo)).mem_iff.mp hp)
  obtain ⟨t, ht⟩ := ctLoop_isOk repo (sortByTime (branchTimes repo)) hs
    (sortByTime (branchTimes repo)).length 1 []
  rw [ht]; rfl

/-- The DefaultRoot strategy never fails. -/
theorem get_branch_tree_with_default_root_isOk (repo : GitRepo) (d : String) :
    (get_branch_tree_with_default_root repo d).isOk = true := by
  unfold get_branch_tree_with_default_root
  by_cases h : (repo.branches.find? (fun b => b.1 == some d)).isNone
  · rw [if_pos h]; rfl
  · rw [if_neg h]
    by_cases h2 : (repo.branches.foldl (defaultRootStep d) []).isEmpty
    · rw [if_pos h2]; rfl
    · rw [if_neg h2]; rfl

/-- C2 amended: only the CommitHistory strategy fails the whole detection
call when a branch name is invalid; CreationTime and DefaultRoot never fail
on it — CreationTime silently skips such a branch (its substituted empty
name does not resolve) and DefaultRoot records the empty string as a
substitute child name. -/
theorem invalid_name_failure_per_strategy (repo : GitRepo) (d : String) :
    ((∃ b ∈ repo.branches, b.1 = none) →
      get_branch_tree_by_history repo = .error (.git invalidUtf8Msg)) ∧
    (get_branch_tree_by_creation_time repo).isOk = true ∧
    (get_branch_tree_with_default_root repo d).isOk = true := by
  refine ⟨fun h => ?_, get_branch_tree_by_creation_time_isOk repo,
    get_branch_tree_with_default_root_isOk repo d⟩
  unfold get_branch_tree_by_history
  rw [collectNames_error_of_invalid repo.branches h]

/-- Witness for `invalid_name_failure_per_strategy` at `repoInvalidName`. -/
theorem invalid_name_failure_per_strategy_witness :
    get_branch_tree_by_history repoInvalidName = .error (.git invalidUtf8Msg) ∧
    (get_branch_tree_by_creation_time repoInvalidName).isOk = true :=
  ⟨(invalid_name_failure_per_strategy repoInvalidName bMain).1 ⟨(none, 1), by decide, rfl⟩,
    (invalid_name_failure_per_strategy repoInvalidName bMain).2.1⟩

/-- A branch tree has no self-loop when no key lists itself as a child. -/
abbrev noSelfLoop (tree : BranchTree) : Prop := ∀ p ∈ tree, p.1 ∉ p.2

/-- Well-formedness of a real repository: distinct branches have distinct
valid names, and no branch is named by the empty string. -/
def RepoWF (repo : GitRepo) : Prop :=
  (repo.branches.filterMap (fun b => b.1)).Nodup ∧
    ∀ b ∈ repo.branches, b.1 ≠ some emptyName

def bA : String := "a"

/-- Configuration produced by the user invoking
`config.add_branch_relationship("a", "a")` on an empty configuration. -/
def cfgSelfLoop : Config :=
  add_branch_relationship
    { default_base_branch := bMain, branch_relationships := [],
      branch_detection_strategy := .manual } bA bA

/-- C5 counterexample: the Manual strategy returns the user-edited
relationship map verbatim, so a configuration created through
`add_branch_relationship` with parent = child yields a detected tree in
which a branch is its own child. -/
theorem manual_strategy_can_self_loop :
    get_branch_tree repoPair .manual cfgSelfLoop = .ok [(bA, [bA])] ∧
    bA ∈ childrenOf [(bA, [bA])] bA := by
  refine ⟨by rfl, by decide⟩

theorem treePush_noSelfLoop : ∀ (tree : BranchTree) (k c : String), k ≠ c →
    noSelfLoop tree → noSelfLoop (treePush tree k c) := by
  intro tree
  induction tree with
  | nil =>
    intro k c hkc h p hp
    simp only [treePush, List.mem_singleton] at hp
    rw [hp]
    simp [hkc]
  | cons hd tl ih =>
    intro k c hkc h p hp
    rcases hd with ⟨k0, cs0⟩
    unfold treePush at hp
    by_cases hk : k0 = k
    · rw [if_pos hk] at hp
      rcases List.mem_cons.mp hp with h1 | h1
      · rw [h1]
        have hk0 : k0 ∉ cs0 := h (k0, cs0) (List.mem_cons_self _ _)
        have hkc0 : k0 ≠ c := hk ▸ hkc
        simp [List.mem_append, hk0, hkc0]
      · exact h p (List.mem_cons_of_mem _ h1)
    · rw [if_neg hk] at hp
      rcases List.mem_cons.mp hp with h1 | h1
      · rw [h1]
        exact h (k0, cs0) (List.mem_cons_self _ _)
      · exact ih k c hkc (fun q hq => h q (List.mem_cons_of_mem _ hq)) p h1

theorem historyInner_noSelfLoop (repo : GitRepo) (all : List String) (bname : String)
    (bcommit : Nat) :
    ∀ (others : List String) (tree : BranchTree), noSelfLoop tree →
      ∀ t, historyInner repo all bname bcommit others tree = .ok t → noSelfLoop t := by
  intro others
  induction others with
  | nil =>
    intro tree h t ht
    unfold historyInner at ht
    simp only [Except.ok.injEq] at ht
    exact ht ▸ h
  | cons other rest ih =>
    intro tree h t ht
    unfold historyInner at ht
    by_cases hbo : bname = other
    · rw [if_pos hbo] at ht
      exact ih tree h t ht
    · rw [if_neg hbo] at ht
      cases hr : revparse repo other with
      | none => rw [hr] at ht; simp at ht
      | some oc =>
        simp only [hr] at ht
        by_cases hd : is_descendant_of repo oc bcommit = true
        · rw [if_pos hd] at ht
          cases hdir : is_direct_parent_child repo all bname other with
          | error e => rw [hdir] at ht; simp at ht
          | ok direct =>
            simp only [hdir] at ht
            cases direct with
            | false =>
              simp only [Bool.not_false] at ht
              rw [if_pos trivial] at ht
              exact ih _ (treePush_noSelfLoop tree bname other hbo h) t ht
            | true =>
              simp only [Bool.not_true] at ht
              rw [if_neg (by simp)] at ht
              exact ih tree h t ht
        · rw [if_neg hd] at ht
          exact ih tree h t ht

theorem historyOuter_noSelfLoop (repo : GitRepo) (all : List String) :
    ∀ (names : List String) (tree : BranchTree), noSelfLoop tree →
      ∀ t, historyOuter repo all names tree = .ok t → noSelfLoop t := by
  intro names
  induction names with
  | nil =>
    intro tree h t ht
    unfold historyOuter at ht
    simp only [Except.ok.injEq] at ht
    exact ht ▸ h
  | cons bname rest ih =>
    intro tree h t ht
    unfold historyOuter at ht
    cases hr : revparse repo bname with
    | none => rw [hr] at ht; simp at ht
    | some bc =>
      simp only [hr] at ht
      cases hin : historyInner repo all bname bc all tree with
      | error e => rw [hin] at ht; simp at ht
      | ok t1 =>
        simp only [hin] at ht
        exact ih t1 (historyInner_noSelfLoop repo all bname bc all tree h t1 hin) t ht

theorem get_branch_tree_by_history_noSelfLoop (repo : GitRepo) (t : BranchTree)
    (ht : get_branch_tree_by_history repo = .ok t) : noSelfLoop t := by
  unfold get_branch_tree_by_history at ht
  cases hc : collectNames repo.branches with
  | error e => rw [hc] at ht; simp at ht
  | ok all =>
    rw [hc] at ht
    exact historyOuter_noSelfLoop repo all all [] (fun p hp => absurd hp (by simp)) t ht

theorem revparse_emptyName (repo : GitRepo)
    (h : ∀ b ∈ repo.branches, b.1 ≠ some emptyName) : revparse repo emptyName = none := by
  unfold revparse
  rw [List.find?_eq_none.mpr]
  · rfl
  · intro b hb
    simpa using h b hb

theorem branchTimes_names_aux (repo : GitRepo)
    (hrev : revparse repo emptyName = none) :
    ∀ (l : List (Option String × Nat)) (acc : List (String × Int)),
      ((l.foldl (branchTimesStep repo) acc).map (fun p => p.1)).Sublist
        (acc.map (fun p => p.1) ++ l.filterMap (fun b => b.1)) := by
  intro l
  induction l with
  | nil => intro acc; simp
  | cons b rest ih =>
    intro acc
    simp only [List.foldl_cons]
    rcases b with ⟨bn, bt⟩
    cases bn with
    | none =>
      have hstep : branchTimesStep repo acc (none, bt) = acc := by
        unfold branchTimesStep
        have : (none : Option String).getD "" = emptyName := rfl
        rw [this, hrev]
      rw [hstep]
      simpa using ih acc
    | some n =>
      have hfm : List.filterMap (fun b => b.1) (((some n, bt) : Option String × Nat) :: rest)
          = n :: List.filterMap (fun b => b.1) rest := List.filterMap_cons_some rfl
      cases hr : revparse repo n with
      | none =>
        have hstep : branchTimesStep repo acc (some n, bt) = acc := by
          unfold branchTimesStep
          have hg : (some n).getD "" = n := rfl
          rw [hg, hr]
        rw [hstep, hfm]
        refine (ih acc).trans ?_
        exact (List.sublist_cons_self n _).append_left _
      | some tip =>
        have hstep : branchTimesStep repo acc (some n, bt) = acc ++ [(n, repo.timeOf tip)] := by
          unfold branchTimesStep
          have hg : (some n).getD "" = n := rfl
          rw [hg, hr]
        rw [hstep, hfm]
        have hgoal := ih (acc ++ [(n, repo.timeOf tip)])
        simpa [List.append_assoc] using hgoal

theorem ctSorted_names_nodup (repo : GitRepo) (hwf : RepoWF repo) :
    ((sortByTime (branchTimes repo)).map (fun p => p.1)).Nodup := by
  have hperm := (sortByTime_perm (branchTimes repo)).map (fun p => p.1)
  refine hperm.nodup_iff.mpr ?_
  have hsub := branchTimes_names_aux repo (revparse_emptyName repo hwf.2) repo.branches []
  simp only [List.map_nil, List.nil_append] at hsub
  exact hsub.nodup hwf.1

theorem take_name_ne_get_name (sorted : List (String × Int))
    (hnd : (sorted.map (fun p => p.1)).Nodup) (i : Nat) (hi : i < sorted.length)
    (q : String × Int) (hq : q ∈ sorted.take i) : q.1 ≠ (sorted.get ⟨i, hi⟩).1 := by
  have hnd2 : ((sorted.take i).map (fun p => p.1) ++ (sorted.drop i).map (fun p => p.1)).Nodup := by
    rw [← List.map_append, List.take_append_drop]
    exact hnd
  have hdisj := (List.nodup_append.mp hnd2).2.2
  have hmem1 : q.1 ∈ (sorted.take i).map (fun p => p.1) := List.mem_map_of_mem _ hq
  have hget : sorted.get ⟨i, hi⟩ ∈ sorted.drop i := by
    rw [List.get_eq_getElem, ← List.getElem_cons_drop sorted i hi]
    exact List.mem_cons_self _ _
  have hmem2 : (sorted.get ⟨i, hi⟩).1 ∈ (sorted.drop i).map (fun p => p.1) :=
    List.mem_map_of_mem _ hget
  intro he
  exact hdisj hmem1 (he ▸ hmem2)

theorem findParent_mem (repo : GitRepo) (cname : String) (ctime : Int) :
    ∀ scanned p, findParent repo cname ctime scanned = .ok (some p) →
      ∃ q ∈ scanned, q.1 = p := by
  intro scanned
  induction scanned with
  | nil => intro p h; simp [findParent] at h
  | cons x older ih =>
    intro p h
    unfold findParent at h
    by_cases hw : ctime - x.2 < thirtyDays
    · rw [if_pos hw] at h
      cases hr : are_branches_related repo x.1 cname with
      | error e => rw [hr] at h; simp at h
      | ok b =>
        rw [hr] at h
        cases b with
        | false =>
          obtain ⟨q, hq, hq1⟩ := ih p h
          exact ⟨q, List.mem_cons_of_mem x hq, hq1⟩
        | true =>
          simp only [Except.ok.injEq, Option.some.injEq] at h
          exact ⟨x, List.mem_cons_self x older, h⟩
    · rw [if_neg hw] at h
      obtain ⟨q, hq, hq1⟩ := ih p h
      exact ⟨q, List.mem_cons_of_mem x hq, hq1⟩

theorem ctLoop_noSelfLoop (repo : GitRepo) (sorted : List (String × Int))
    (hnd : (sorted.map (fun p => p.1)).Nodup) :
    ∀ fuel i tree, noSelfLoop tree →
      ∀ t, ctLoop repo sorted fuel i tree = .ok t → noSelfLoop t := by
  intro fuel
  induction fuel with
  | zero =>
    intro i tree h t ht
    simp only [ctLoop, Except.ok.injEq] at ht
    exact ht ▸ h
  | succ n ih =>
    intro i tree h t ht
    unfold ctLoop at ht
    by_cases hi : i < sorted.length
    · rw [dif_pos hi] at ht
      cases hfp : findParent repo (sorted.get ⟨i, hi⟩).1 (sorted.get ⟨i, hi⟩).2
          ((sorted.take i).reverse) with
      | error e => rw [hfp] at ht; simp at ht
      | ok r =>
        rw [hfp] at ht
        cases r with
        | none => exact ih (i + 1) tree h t ht
        | some p =>
          obtain ⟨q, hq, hq1⟩ := findParent_mem repo _ _ _ p hfp
          have hne : p ≠ (sorted.get ⟨i, hi⟩).1 :=
            hq1 ▸ take_name_ne_get_name sorted hnd i hi q (List.mem_reverse.mp hq)
          exact ih (i + 1) _ (treePush_noSelfLoop tree p _ hne h) t ht
    · rw [dif_neg hi] at ht
      simp only [Except.ok.injEq] at ht
      exact ht ▸ h

theorem get_branch_tree_by_creation_time_noSelfLoop (repo : GitRepo) (hwf : RepoWF repo)
    (t : BranchTree) (ht : get_branch_tree_by_creation_time repo = .ok t) : noSelfLoop t := by
  unfold get_branch_tree_by_creation_time at ht
  exact ctLoop_noSelfLoop repo _ (ctSorted_names_nodup repo hwf) _ 1 []
    (fun p hp => absurd hp (by simp)) t ht

theorem defaultRoot_children_ne (d : String) :
    ∀ (l : List (Option String × Nat)) (acc : List String),
      (∀ x ∈ acc, x ≠ d) → ∀ x ∈ l.foldl (defaultRootStep d) acc, x ≠ d := by
  intro l
  induction l with
  | nil => intro acc hacc x hx; exact hacc x hx
  | cons b rest ih =>
    intro acc hacc x hx
    simp only [List.foldl_cons] at hx
    refine ih _ ?_ x hx
    intro y hy
    unfold defaultRootStep at hy
    by_cases hb : b.1.getD "" ≠ d
    · rw [if_pos hb] at hy
      rcases List.mem_append.mp hy with h1 | h1
      · exact hacc y h1
      · have : y = b.1.getD "" := by simpa using h1
        exact this ▸ hb
    · rw [if_neg hb] at hy
      exact hacc y hy

theorem get_branch_tree_with_default_root_noSelfLoop (repo : GitRepo) (d : String)
    (t : BranchTree) (ht : get_branch_tree_with_default_root repo d = .ok t) :
    noSelfLoop t := by
  unfold get_branch_tree_with_default_root at ht
  by_cases h : (repo.branches.find? (fun b => b.1 == some d)).isNone
  · rw [if_pos h] at ht
    simp only [Except.ok.injEq] at ht
    exact ht ▸ fun p hp => absurd hp (by simp)
  · rw [if_neg h] at ht
    by_cases h2 : (repo.branches.foldl (defaultRootStep d) []).isEmpty
    · rw [if_pos h2] at ht
      simp only [Except.ok.injEq] at ht
      exact ht ▸ fun p hp => absurd hp (by simp)
    · rw [if_neg h2] at ht
      simp only [Except.ok.injEq] at ht
      subst ht
      intro p hp
      have hp1 : p = (d, repo.branches.foldl (defaultRootStep d) []) := by simpa using hp
      rw [hp1]
      intro hmem
      exact defaultRoot_children_ne d repo.branches [] (by simp) d hmem rfl

/-- C5 amended: every computed strategy (CommitHistory, CreationTime,
DefaultRoot) produces a self-loop-free tree on a well-formed repository;
only the Manual strategy, which returns the user-edited configuration
verbatim, can contain a self-loop (see `manual_strategy_can_self_loop`). -/
theorem computed_strategies_no_self_loop (repo : GitRepo) (config : Config)
    (s : BranchRelationStrategy) (hs : s ≠ .manual) (hwf : RepoWF repo)
    (t : BranchTree) (ht : get_branch_tree repo s config = .ok t) : noSelfLoop t := by
  cases s with
  | manual => exact absurd rfl hs
  | commitHistory => exact get_branch_tree_by_history_noSelfLoop repo t ht
  | creationTime => exact get_branch_tree_by_creation_time_noSelfLoop repo hwf t ht
  | defaultRoot => exact get_branch_tree_with_default_root_noSelfLoop repo _ t ht

/-- Witness for `computed_strategies_no_self_loop`: in the CommitHistory
tree of `repoChain`, the entry for `main` does not list `main` itself. -/
theorem computed_strategies_no_self_loop_witness :
    bMain ∉ [bTop] :=
  computed_strategies_no_self_loop repoChain
    { default_base_branch := bMain, branch_relationships := [],
      branch_detection_strategy := .commitHistory }
    .commitHistory (by decide) ⟨by decide, by decide⟩ [(bMain, [bTop])] (by rfl)
    (bMain, [bTop]) (by simp)

/-- Record of one attempted merge edge during a cascade: parent, child, and
whether `merge_branch` succeeded (a failure is only logged as a warning). -/
structure MergeEvent where
  src : String
  dst : String
  succeeded : Bool
deriving DecidableEq, Repr

/-- The backend merge primitive as seen by the cascade. -/
abbrev MergeFn := String → String → Except GitFlowErrorM Unit

/-- The event recorded for the attempt `f src dst`. -/
def mkEv (f : MergeFn) (src dst : String) : MergeEvent :=
  { src := src, dst := dst, succeeded := (f src dst).isOk }

/-- The children part of `merge_recursive` (`src/commands/cascade.rs:154`):
for each child of `b`, attempt the merge (its outcome is recorded but never
propagated) and recurse into the child.  The recursive visit is passed as a
function so the two loops can be analysed separately. -/
def mergeChildren (f : MergeFn)
    (visit : String → List String → Option (List String × List MergeEvent)) (b : String) :
    List String → List String → Option (List String × List MergeEvent)
  | [], processed => some (processed, [])
  | c :: rest, processed =>
    match visit c processed with
    | none => none
    | some (p1, evs1) =>
      match mergeChildren f visit b rest p1 with
      | none => none
      | some (p2, evs2) => some (p2, mkEv f b c :: (evs1 ++ evs2))

/-- `merge_recursive` from `src/commands/cascade.rs:140`: skip an already
processed branch, otherwise mark it processed and handle its children.  The
fuel is a modelling artefact bounding the recursion depth;
`cascadeFuel` below is proved sufficient. -/
def mergeRecursive (tree : BranchTree) (f : MergeFn) :
    Nat → String → List String → Option (List String × List MergeEvent)
  | 0, _, _ => none
  | fuel + 1, branch, processed =>
    if branch ∈ processed then some (processed, [])
    else
      mergeChildren f (mergeRecursive tree f fuel) branch (childrenOf tree branch)
        (branch :: processed)

/-- Every branch name occurring in the tree (keys and children). -/
def allNames (tree : BranchTree) : List String :=
  tree.map (fun p => p.1) ++ allChildrenOf tree

/-- Fuel passed to `mergeRecursive` by the cascade driver. -/
def cascadeFuel (tree : BranchTree) : Nat := (allNames tree).length + 1

/-- The root loop of `handle_cascade` (`src/commands/cascade.rs:112`):
process each root with the shared processed set. -/
def cascadeRoots (tree : BranchTree) (f : MergeFn) :
    List String → List String → Option (List String × List MergeEvent)
  | [], processed => some (processed, [])
  | r :: rs, processed =>
    match mergeRecursive tree f (cascadeFuel tree) r processed with
    | none => none
    | some (p1, evs1) =>
      match cascadeRoots tree f rs p1 with
      | none => none
      | some (p2, evs2) => some (p2, evs1 ++ evs2)

/-- The whole cascade phase: traverse from the detected roots with an empty
processed set. -/
def runCascade (tree : BranchTree) (f : MergeFn) :
    Option (List String × List MergeEvent) :=
  cascadeRoots tree f (find_root_branches tree) []

/-- A key of the tree occurs in `allNames`. -/
theorem childrenOf_eq_nil_of_not_mem_allNames (tree : BranchTree) (b : String)
    (h : b ∉ allNames tree) : childrenOf tree b = [] := by
  unfold childrenOf
  cases hf : tree.find? (fun p => p.1 == b) with
  | none => rfl
  | some q =>
    exfalso
    have hq1 := List.find?_some hf
    have hqmem : q ∈ tree := List.mem_of_find?_eq_some hf
    refine h (List.mem_append_left _ ?_)
    exact List.mem_map.mpr ⟨q, hqmem, by simpa using hq1⟩

/-- Children of a branch are names of the tree. -/
theorem childrenOf_subset_allNames (tree : BranchTree) (b : String) :
    ∀ c ∈ childrenOf tree b, c ∈ allNames tree := by
  intro c hc
  unfold childrenOf at hc
  cases hf : tree.find? (fun p => p.1 == b) with
  | none => rw [hf] at hc; simp at hc
  | some q =>
    rw [hf] at hc
    have hqmem : q ∈ tree := List.mem_of_find?_eq_some hf
    exact List.mem_append_right _ ((mem_allChildrenOf tree c).mpr ⟨q, hqmem, hc⟩)

/-- Roots are keys of the tree, hence names of the tree. -/
theorem find_root_branches_subset_allNames (tree : BranchTree) :
    ∀ r ∈ find_root_branches tree, r ∈ allNames tree := by
  intro r hr
  exact List.mem_append_left _ ((find_root_branches_spec tree r).mp hr).1

/-- Names of the tree still missing from the processed set. -/
def remaining (tree : BranchTree) (p : List String) : Nat :=
  ((allNames tree).toFinset \ p.toFinset).card

theorem remaining_le (tree : BranchTree) (p : List String) :
    remaining tree p ≤ (allNames tree).length :=
  le_trans (Finset.card_le_card (Finset.sdiff_subset)) (List.toFinset_card_le _)

theorem remaining_mono (tree : BranchTree) {p q : List String} (h : p ⊆ q) :
    remaining tree q ≤ remaining tree p := by
  refine Finset.card_le_card (Finset.sdiff_subset_sdiff (Finset.Subset.refl _) ?_)
  intro x hx
  exact List.mem_toFinset.mpr (h (List.mem_toFinset.mp hx))

theorem remaining_insert_lt (tree : BranchTree) {b : String} {p : List String}
    (hb : b ∈ allNames tree) (hp : b ∉ p) :
    remaining tree (b :: p) < remaining tree p := by
  unfold remaining
  have hmem : b ∈ (allNames tree).toFinset \ p.toFinset := by
    simp [List.mem_toFinset, hb, hp]
  apply Finset.card_lt_card
  rw [Finset.ssubset_iff_of_subset]
  · exact ⟨b, hmem, by simp⟩
  · refine Finset.sdiff_subset_sdiff (Finset.Subset.refl _) ?_
    intro x hx
    simp only [List.toFinset_cons]
    exact Finset.mem_insert_of_mem hx

theorem mergeChildren_subset (f : MergeFn)
    (visit : String → List String → Option (List String × List MergeEvent))
    (hmono : ∀ c p p2 evs, visit c p = some (p2, evs) → p ⊆ p2) (b : String) :
    ∀ cs p p2 evs, mergeChildren f visit b cs p = some (p2, evs) → p ⊆ p2 := by
  intro cs
  induction cs with
  | nil =>
    intro p p2 evs h
    simp only [mergeChildren, Option.some.injEq, Prod.mk.injEq] at h
    exact h.1 ▸ List.Subset.refl p
  | cons c rest ih =>
    intro p p2 evs h
    unfold mergeChildren at h
    cases hv : visit c p with
    | none => rw [hv] at h; simp at h
    | some r1 =>
      obtain ⟨p1, evs1⟩ := r1
      simp only [hv] at h
      cases hm : mergeChildren f visit b rest p1 with
      | none => rw [hm] at h; simp at h
      | some r2 =>
        obtain ⟨q2, evs2⟩ := r2
        simp only [hm, Option.some.injEq, Prod.mk.injEq] at h
        refine List.Subset.trans (hmono c p p1 evs1 hv) ?_
        refine List.Subset.trans (ih p1 q2 evs2 hm) ?_
        rw [h.1]
        exact List.Subset.refl _

theorem mergeRecursive_subset (tree : BranchTree) (f : MergeFn) :
    ∀ fuel b p p2 evs, mergeRecursive tree f fuel b p = some (p2, evs) → p ⊆ p2 := by
  intro fuel
  induction fuel with
  | zero => intro b p p2 evs h; simp [mergeRecursive] at h
  | succ n ih =>
    intro b p p2 evs h
    unfold mergeRecursive at h
    by_cases hb : b ∈ p
    · rw [if_pos hb] at h
      simp only [Option.some.injEq, Prod.mk.injEq] at h
      exact h.1 ▸ List.Subset.refl p
    · rw [if_neg hb] at h
      have := mergeChildren_subset f (mergeRecursive tree f n)
        (fun c q q2 evs2 hq => ih c q q2 evs2 hq) b (childrenOf tree b) (b :: p) p2 evs h
      exact List.Subset.trans (List.subset_cons_self b p) this

theorem mergeRecursive_mem_self (tree : BranchTree) (f : MergeFn) :
    ∀ fuel b p p2 evs, mergeRecursive tree f fuel b p = some (p2, evs) → b ∈ p2 := by
  intro fuel b p p2 evs h
  cases fuel with
  | zero => simp [mergeRecursive] at h
  | succ n =>
    unfold mergeRecursive at h
    by_cases hb : b ∈ p
    · rw [if_pos hb] at h
      simp only [Option.some.injEq, Prod.mk.injEq] at h
      exact h.1 ▸ hb
    · rw [if_neg hb] at h
      exact mergeChildren_subset f (mergeRecursive tree f n)
        (fun c q q2 evs2 hq => mergeRecursive_subset tree f n c q q2 evs2 hq)
        b (childrenOf tree b) (b :: p) p2 evs h (List.mem_cons_self b p)

theorem mergeChildren_isSome (tree : BranchTree) (f : MergeFn)
    (visit : String → List String → Option (List String × List MergeEvent)) (F : Nat)
    (hmono : ∀ c p p2 evs, visit c p = some (p2, evs) → p ⊆ p2)
    (hsome : ∀ c p, remaining tree p < F → (visit c p).isSome = true) (b : String) :
    ∀ cs p, remaining tree p < F → (mergeChildren f visit b cs p).isSome = true := by
  intro cs
  induction cs with
  | nil => intro p _; rfl
  | cons c rest ih =>
    intro p hp
    unfold mergeChildren
    cases hv : visit c p with
    | none =>
      have hcontra := hsome c p hp
      rw [hv] at hcontra
      simp at hcontra
    | some r1 =>
      obtain ⟨p1, evs1⟩ := r1
      have hr1 : remaining tree p1 < F :=
        lt_of_le_of_lt (remaining_mono tree (hmono c p p1 evs1 hv)) hp
      have hrest := ih p1 hr1
      cases hm : mergeChildren f visit b rest p1 with
      | none => rw [hm] at hrest; simp at hrest
      | some r2 =>
        obtain ⟨q2, evs2⟩ := r2
        simp only [hv, hm]
        rfl

theorem mergeRecursive_isSome (tree : BranchTree) (f : MergeFn) :
    ∀ fuel b p, remaining tree p < fuel →
      (mergeRecursive tree f fuel b p).isSome = true := by
  intro fuel
  induction fuel with
  | zero => intro b p h; omega
  | succ n ih =>
    intro b p hp
    unfold mergeRecursive
    by_cases hb : b ∈ p
    · rw [if_pos hb]; rfl
    · rw [if_neg hb]
      by_cases hname : b ∈ allNames tree
      · refine mergeChildren_isSome tree f (mergeRecursive tree f n) n
          (fun c q q2 evs2 hq => mergeRecursive_subset tree f n c q q2 evs2 hq)
          (fun c q hq => ih c q hq) b (childrenOf tree b) (b :: p) ?_
        have hlt := remaining_insert_lt tree hname hb
        omega
      · rw [childrenOf_eq_nil_of_not_mem_allNames tree b hname]
        rfl

/-- Forget merge outcomes: keep only the attempted edges. -/
def edgesOf (evs : List MergeEvent) : List (String × String) :=
  evs.map (fun e => (e.src, e.dst))

/-- Projection of a traversal result to processed set and attempted edges. -/
def projEdges (r : Option (List String × List MergeEvent)) :
    Option (List String × List (String × String)) :=
  r.map (fun x => (x.1, edgesOf x.2))

theorem mergeChildren_proj_eq (f g : MergeFn)
    (visitF visitG : String → List String → Option (List String × List MergeEvent))
    (hvis : ∀ c p, projEdges (visitF c p) = projEdges (visitG c p)) (b : String) :
    ∀ cs p, projEdges (mergeChildren f visitF b cs p)
      = projEdges (mergeChildren g visitG b cs p) := by
  intro cs
  induction cs with
  | nil => intro p; rfl
  | cons c rest ih =>
    intro p
    unfold mergeChildren
    have h1 := hvis c p
    cases hvF : visitF c p with
    | none =>
      rw [hvF] at h1
      cases hvG : visitG c p with
      | none => rfl
      | some rG => rw [hvG] at h1; simp [projEdges] at h1
    | some rF =>
      obtain ⟨pF, eF⟩ := rF
      rw [hvF] at h1
      cases hvG : visitG c p with
      | none => rw [hvG] at h1; simp [projEdges] at h1
      | some rG =>
        obtain ⟨pG, eG⟩ := rG
        rw [hvG] at h1
        have h1' : (pF, edgesOf eF) = (pG, edgesOf eG) := by
          simpa [projEdges] using h1
        have hpeq : pF = pG := congrArg Prod.fst h1'
        have heq : edgesOf eF = edgesOf eG := congrArg Prod.snd h1'
        subst hpeq
        have h2 := ih pF
        cases hmF : mergeChildren f visitF b rest pF with
        | none =>
          rw [hmF] at h2
          cases hmG : mergeChildren g visitG b rest pF with
          | none => simp only [hmF, hmG]
          | some r2G => rw [hmG] at h2; simp [projEdges] at h2
        | some r2F =>
          obtain ⟨p2F, e2F⟩ := r2F
          rw [hmF] at h2
          cases hmG : mergeChildren g visitG b rest pF with
          | none => rw [hmG] at h2; simp [projEdges] at h2
          | some r2G =>
            obtain ⟨p2G, e2G⟩ := r2G
            rw [hmG] at h2
            have h2' : (p2F, edgesOf e2F) = (p2G, edgesOf e2G) := by
              simpa [projEdges] using h2
            have hp2 : p2F = p2G := congrArg Prod.fst h2'
            have he2 : edgesOf e2F = edgesOf e2G := congrArg Prod.snd h2'
            subst hp2
            simp only [hmF, hmG, projEdges, Option.map_some', Option.some.injEq,
              Prod.mk.injEq]
            refine ⟨trivial, ?_⟩
            simp only [edgesOf] at heq he2
            simp only [edgesOf, List.map_cons, List.map_append, mkEv]
            rw [heq, he2]

theorem mergeRecursive_proj_eq (tree : BranchTree) (f g : MergeFn) :
    ∀ fuel b p, projEdges (mergeRecursive tree f fuel b p)
      = projEdges (mergeRecursive tree g fuel b p) := by
  intro fuel
  induction fuel with
  | zero => intro b p; rfl
  | succ n ih =>
    intro b p
    unfold mergeRecursive
    by_cases hb : b ∈ p
    · rw [if_pos hb, if_pos hb]
    · rw [if_neg hb, if_neg hb]
      exact mergeChildren_proj_eq f g (mergeRecursive tree f n) (mergeRecursive tree g n)
        (fun c q => ih c q) b (childrenOf tree b) (b :: p)

theorem mergeChildren_nodup (f : MergeFn)
    (visit : String → List String → Option (List String × List MergeEvent))
    (hN : ∀ c p p2 evs, p.Nodup → visit c p = some (p2, evs) → p2.Nodup) (b : String) :
    ∀ cs p p2 evs, p.Nodup → mergeChildren f visit b cs p = some (p2, evs) → p2.Nodup := by
  intro cs
  induction cs with
  | nil =>
    intro p p2 evs hp h
    simp only [mergeChildren, Option.some.injEq, Prod.mk.injEq] at h
    exact h.1 ▸ hp
  | cons c rest ih =>
    intro p p2 evs hp h
    unfold mergeChildren at h
    cases hv : visit c p with
    | none => rw [hv] at h; simp at h
    | some r1 =>
      obtain ⟨p1, evs1⟩ := r1
      simp only [hv] at h
      cases hm : mergeChildren f visit b rest p1 with
      | none => rw [hm] at h; simp at h
      | some r2 =>
        obtain ⟨q2, evs2⟩ := r2
        simp only [hm, Option.some.injEq, Prod.mk.injEq] at h
        exact h.1 ▸ ih p1 q2 evs2 (hN c p p1 evs1 hp hv) hm

theorem mergeRecursive_nodup (tree : BranchTree) (f : MergeFn) :
    ∀ fuel b p p2 evs, p.Nodup → mergeRecursive tree f fuel b p = some (p2, evs) →
      p2.Nodup := by
  intro fuel
  induction fuel with
  | zero => intro b p p2 evs _ h; simp [mergeRecursive] at h
  | succ n ih =>
    intro b p p2 evs hp h
    unfold mergeRecursive at h
    by_cases hb : b ∈ p
    · rw [if_pos hb] at h
      simp only [Option.some.injEq, Prod.mk.injEq] at h
      exact h.1 ▸ hp
    · rw [if_neg hb] at h
      exact mergeChildren_nodup f (mergeRecursive tree f n)
        (fun c q q2 evs2 hq hqe => ih c q q2 evs2 hq hqe) b (childrenOf tree b)
        (b :: p) p2 evs (List.nodup_cons.mpr ⟨hb, hp⟩) h

/-- Reachability along tree edges (parent to child), reflexive-transitive. -/
def Reaches (tree : BranchTree) : String → String → Prop :=
  Relation.ReflTransGen (fun x y => y ∈ childrenOf tree x)

theorem mergeChildren_sound (tree : BranchTree) (f : MergeFn)
    (visit : String → List String → Option (List String × List MergeEvent))
    (hS : ∀ c p p2 evs, visit c p = some (p2, evs) →
      ∀ x ∈ p2, x ∈ p ∨ Reaches tree c x) (b : String) :
    ∀ cs p p2 evs, mergeChildren f visit b cs p = some (p2, evs) →
      ∀ x ∈ p2, x ∈ p ∨ ∃ c ∈ cs, Reaches tree c x := by
  intro cs
  induction cs with
  | nil =>
    intro p p2 evs h x hx
    simp only [mergeChildren, Option.some.injEq, Prod.mk.injEq] at h
    exact Or.inl (h.1 ▸ hx)
  | cons c rest ih =>
    intro p p2 evs h x hx
    unfold mergeChildren at h
    cases hv : visit c p with
    | none => rw [hv] at h; simp at h
    | some r1 =>
      obtain ⟨p1, evs1⟩ := r1
      simp only [hv] at h
      cases hm : mergeChildren f visit b rest p1 with
      | none => rw [hm] at h; simp at h
      | some r2 =>
        obtain ⟨q2, evs2⟩ := r2
        simp only [hm, Option.some.injEq, Prod.mk.injEq] at h
        rcases ih p1 q2 evs2 hm x (h.1 ▸ hx) with h1 | ⟨d, hd, hreach⟩
        · rcases hS c p p1 evs1 hv x h1 with h2 | h2
          · exact Or.inl h2
          · exact Or.inr ⟨c, List.mem_cons_self c rest, h2⟩
        · exact Or.inr ⟨d, List.mem_cons_of_mem c hd, hreach⟩

theorem mergeRecursive_sound (tree : BranchTree) (f : MergeFn) :
    ∀ fuel b p p2 evs, mergeRecursive tree f fuel b p = some (p2, evs) →
      ∀ x ∈ p2, x ∈ p ∨ Reaches tree b x := by
  intro fuel
  induction fuel with
  | zero => intro b p p2 evs h; simp [mergeRecursive] at h
  | succ n ih =>
    intro b p p2 evs h x hx
    unfold mergeRecursive at h
    by_cases hb : b ∈ p
    · rw [if_pos hb] at h
      simp only [Option.some.injEq, Prod.mk.injEq] at h
      exact Or.inl (h.1 ▸ hx)
    · rw [if_neg hb] at h
      rcases mergeChildren_sound tree f (mergeRecursive tree f n)
          (fun c q q2 evs2 hq => ih c q q2 evs2 hq) b (childrenOf tree b) (b :: p)
          p2 evs h x hx with h1 | ⟨c, hc, hreach⟩
      · rcases List.mem_cons.mp h1 with h2 | h2
        · exact Or.inr (h2 ▸ Relation.ReflTransGen.refl)
        · exact Or.inl h2
      · exact Or.inr (Relation.ReflTransGen.head hc hreach)

theorem mergeChildren_closed (tree : BranchTree) (f : MergeFn)
    (visit : String → List String → Option (List String × List MergeEvent))
    (hmono : ∀ c p p2 evs, visit c p = some (p2, evs) → p ⊆ p2)
    (hself : ∀ c p p2 evs, visit c p = some (p2, evs) → c ∈ p2)
    (hC : ∀ c p p2 evs, visit c p = some (p2, evs) →
      ∀ x ∈ p2, x ∈ p ∨ ∀ y ∈ childrenOf tree x, y ∈ p2) (b : String) :
    ∀ cs p p2 evs, mergeChildren f visit b cs p = some (p2, evs) →
      (∀ x ∈ p2, x ∈ p ∨ ∀ y ∈ childrenOf tree x, y ∈ p2) ∧ ∀ c ∈ cs, c ∈ p2 := by
  intro cs
  induction cs with
  | nil =>
    intro p p2 evs h
    simp only [mergeChildren, Option.some.injEq, Prod.mk.injEq] at h
    exact ⟨fun x hx => Or.inl (h.1 ▸ hx), fun c hc => absurd hc (by simp)⟩
  | cons c rest ih =>
    intro p p2 evs h
    unfold mergeChildren at h
    cases hv : visit c p with
    | none => rw [hv] at h; simp at h
    | some r1 =>
      obtain ⟨p1, evs1⟩ := r1
      simp only [hv] at h
      cases hm : mergeChildren f visit b rest p1 with
      | none => rw [hm] at h; simp at h
      | some r2 =>
        obtain ⟨q2, evs2⟩ := r2
        simp only [hm, Option.some.injEq, Prod.mk.injEq] at h
        obtain ⟨hq2, _⟩ := h
        subst hq2
        have hrest := ih p1 q2 evs2 hm
        have hsub : p1 ⊆ q2 :=
          mergeChildren_subset f visit hmono b rest p1 q2 evs2 hm
        constructor
        · intro x hx
          rcases hrest.1 x hx with h1 | h1
          · rcases hC c p p1 evs1 hv x h1 with h2 | h2
            · exact Or.inl h2
            · exact Or.inr (fun y hy => hsub (h2 y hy))
          · exact Or.inr h1
        · intro d hd
          rcases List.mem_cons.mp hd with h1 | h1
          · exact h1 ▸ hsub (hself c p p1 evs1 hv)
          · exact hrest.2 d h1

theorem mergeRecursive_closed (tree : BranchTree) (f : MergeFn) :
    ∀ fuel b p p2 evs, mergeRecursive tree f fuel b p = some (p2, evs) →
      ∀ x ∈ p2, x ∈ p ∨ ∀ y ∈ childrenOf tree x, y ∈ p2 := by
  intro fuel
  induction fuel with
  | zero => intro b p p2 evs h; simp [mergeRecursive] at h
  | succ n ih =>
    intro b p p2 evs h x hx
    unfold mergeRecursive at h
    by_cases hb : b ∈ p
    · rw [if_pos hb] at h
      simp only [Option.some.injEq, Prod.mk.injEq] at h
      exact Or.inl (h.1 ▸ hx)
    · rw [if_neg hb] at h
      have hmc := mergeChildren_closed tree f (mergeRecursive tree f n)
        (fun c q q2 evs2 hq => mergeRecursive_subset tree f n c q q2 evs2 hq)
        (fun c q q2 evs2 hq => mergeRecursive_mem_self tree f n c q q2 evs2 hq)
        (fun c q q2 evs2 hq => ih c q q2 evs2 hq) b (childrenOf tree b) (b :: p) p2 evs h
      rcases hmc.1 x hx with h1 | h1
      · rcases List.mem_cons.mp h1 with h2 | h2
        · exact Or.inr (fun y hy => hmc.2 y (h2 ▸ hy))
        · exact Or.inl h2
      · exact Or.inr h1

theorem mergeChildren_filter (tree : BranchTree) (f : MergeFn)
    (visit : String → List String → Option (List String × List MergeEvent))
    (hmono : ∀ c p p2 evs, visit c p = some (p2, evs) → p ⊆ p2)
    (hF : ∀ c p p2 evs, visit c p = some (p2, evs) → ∀ s,
      evs.filter (fun e => e.src == s) =
        if s ∈ p2 ∧ s ∉ p then (childrenOf tree s).map (fun d => mkEv f s d) else [])
    (b : String) :
    ∀ cs p p2 evs, b ∈ p → mergeChildren f visit b cs p = some (p2, evs) →
      ∀ s, evs.filter (fun e => e.src == s) =
        if s = b then cs.map (fun d => mkEv f b d)
        else if s ∈ p2 ∧ s ∉ p then (childrenOf tree s).map (fun d => mkEv f s d)
        else [] := by
  intro cs
  induction cs with
  | nil =>
    intro p p2 evs hbp h s
    simp only [mergeChildren, Option.some.injEq, Prod.mk.injEq] at h
    obtain ⟨hp, hevs⟩ := h
    subst hp
    subst hevs
    by_cases hsb : s = b
    · simp [hsb]
    · rw [List.filter_nil, if_neg hsb, if_neg (fun hh => hh.2 hh.1)]
  | cons c rest ih =>
    intro p p2 evs hbp h s
    unfold mergeChildren at h
    cases hv : visit c p with
    | none => rw [hv] at h; simp at h
    | some r1 =>
      obtain ⟨p1, evs1⟩ := r1
      simp only [hv] at h
      cases hm : mergeChildren f visit b rest p1 with
      | none => rw [hm] at h; simp at h
      | some r2 =>
        obtain ⟨q2, evs2⟩ := r2
        simp only [hm, Option.some.injEq, Prod.mk.injEq] at h
        obtain ⟨hq2, hevs⟩ := h
        subst hq2
        subst hevs
        have hp1 : p ⊆ p1 := hmono c p p1 evs1 hv
        have hp2 : p1 ⊆ q2 := mergeChildren_subset f visit hmono b rest p1 q2 evs2 hm
        have h1 := hF c p p1 evs1 hv s
        have h2 := ih p1 q2 evs2 (hp1 hbp) hm s
        simp only [List.filter_cons, List.filter_append]
        by_cases hsb : s = b
        · subst hsb
          have hhead : ((mkEv f s c).src == s) = true := by simp [mkEv]
          rw [hhead]
          have h1z : evs1.filter (fun e => e.src == s) = [] := by
            rw [h1, if_neg]
            rintro ⟨_, hnp⟩
            exact hnp hbp
          rw [if_pos rfl] at h2
          rw [if_pos rfl, h1z, h2]
          simp
        · have hhead : ((mkEv f b c).src == s) = false := by
            simp only [mkEv]
            exact beq_eq_false_iff_ne.mpr (Ne.symm hsb)
          rw [hhead]
          rw [if_neg hsb] at h2
          rw [if_neg hsb]
          simp only [Bool.false_eq_true, if_false]
          by_cases hsp1 : s ∈ p1
          · by_cases hsp : s ∈ p
            · have h1z : evs1.filter (fun e => e.src == s) = [] := by
                rw [h1, if_neg]
                rintro ⟨_, hnp⟩
                exact hnp hsp
              have h2z : evs2.filter (fun e => e.src == s) = [] := by
                rw [h2, if_neg]
                rintro ⟨_, hnp1⟩
                exact hnp1 hsp1
              rw [h1z, h2z, if_neg (fun hh => hh.2 hsp)]
              rfl
            · have h1c : evs1.filter (fun e => e.src == s)
                  = (childrenOf tree s).map (fun d => mkEv f s d) := by
                rw [h1, if_pos ⟨hsp1, hsp⟩]
              have h2z : evs2.filter (fun e => e.src == s) = [] := by
                rw [h2, if_neg]
                rintro ⟨_, hnp1⟩
                exact hnp1 hsp1
              rw [h1c, h2z, if_pos ⟨hp2 hsp1, hsp⟩]
              simp
          · have hsp : s ∉ p := fun hh => hsp1 (hp1 hh)
            have h1z : evs1.filter (fun e => e.src == s) = [] := by
              rw [h1, if_neg]
              rintro ⟨hin, _⟩
              exact hsp1 hin
            by_cases hsq2 : s ∈ q2
            · rw [if_pos ⟨hsq2, hsp1⟩] at h2
              rw [h1z, h2, if_pos ⟨hsq2, hsp⟩]
              rfl
            · rw [if_neg (fun hh => hsq2 hh.1)] at h2
              rw [h1z, h2, if_neg (fun hh => hsq2 hh.1)]
              rfl

theorem mergeRecursive_filter (tree : BranchTree) (f : MergeFn) :
    ∀ fuel b p p2 evs, mergeRecursive tree f fuel b p = some (p2, evs) →
      ∀ s, evs.filter (fun e => e.src == s) =
        if s ∈ p2 ∧ s ∉ p then (childrenOf tree s).map (fun d => mkEv f s d) else [] := by
  intro fuel
  induction fuel with
  | zero => intro b p p2 evs h; simp [mergeRecursive] at h
  | succ n ih =>
    intro b p p2 evs h s
    unfold mergeRecursive at h
    by_cases hb : b ∈ p
    · rw [if_pos hb] at h
      simp only [Option.some.injEq, Prod.mk.injEq] at h
      obtain ⟨hp, hevs⟩ := h
      subst hp
      subst hevs
      rw [List.filter_nil, if_neg (fun hh => hh.2 hh.1)]
    · rw [if_neg hb] at h
      have hbp2 : b ∈ p2 :=
        mergeChildren_subset f (mergeRecursive tree f n)
          (fun c q q2 evs2 hq => mergeRecursive_subset tree f n c q q2 evs2 hq)
          b (childrenOf tree b) (b :: p) p2 evs h (List.mem_cons_self b p)
      have hmc := mergeChildren_filter tree f (mergeRecursive tree f n)
        (fun c q q2 evs2 hq => mergeRecursive_subset tree f n c q q2 evs2 hq)
        (fun c q q2 evs2 hq => ih c q q2 evs2 hq) b (childrenOf tree b) (b :: p) p2 evs
        (List.mem_cons_self b p) h s
      by_cases hsb : s = b
      · subst hsb
        rw [if_pos rfl] at hmc
        rw [hmc, if_pos ⟨hbp2, hb⟩]
      · rw [if_neg hsb] at hmc
        rw [hmc]
        have hcnd : (s ∈ p2 ∧ s ∉ b :: p) ↔ (s ∈ p2 ∧ s ∉ p) := by
          simp [List.mem_cons, hsb]
        by_cases hcond : s ∈ p2 ∧ s ∉ p
        · rw [if_pos (hcnd.mpr hcond), if_pos hcond]
        · rw [if_neg (fun hh => hcond (hcnd.mp hh)), if_neg hcond]

theorem cascadeRoots_subset (tree : BranchTree) (f : MergeFn) :
    ∀ rs p p2 evs, cascadeRoots tree f rs p = some (p2, evs) → p ⊆ p2 := by
  intro rs
  induction rs with
  | nil =>
    intro p p2 evs h
    simp only [cascadeRoots, Option.some.injEq, Prod.mk.injEq] at h
    exact h.1 ▸ List.Subset.refl p
  | cons r rest ih =>
    intro p p2 evs h
    unfold cascadeRoots at h
    cases hv : mergeRecursive tree f (cascadeFuel tree) r p with
    | none => rw [hv] at h; simp at h
    | some r1 =>
      obtain ⟨p1, evs1⟩ := r1
      simp only [hv] at h
      cases hm : cascadeRoots tree f rest p1 with
      | none => rw [hm] at h; simp at h
      | some r2 =>
        obtain ⟨q2, evs2⟩ := r2
        simp only [hm, Option.some.injEq, Prod.mk.injEq] at h
        refine List.Subset.trans (mergeRecursive_subset tree f _ r p p1 evs1 hv) ?_
        exact h.1 ▸ ih p1 q2 evs2 hm

theorem cascadeRoots_isSome (tree : BranchTree) (f : MergeFn) :
    ∀ rs p, (cascadeRoots tree f rs p).isSome = true := by
  intro rs
  induction rs with
  | nil => intro p; rfl
  | cons r rest ih =>
    intro p
    unfold cascadeRoots
    have hlt : remaining tree p < cascadeFuel tree := by
      have := remaining_le tree p
      unfold cascadeFuel
      omega
    have hv := mergeRecursive_isSome tree f (cascadeFuel tree) r p hlt
    cases hvr : mergeRecursive tree f (cascadeFuel tree) r p with
    | none => rw [hvr] at hv; simp at hv
    | some r1 =>
      obtain ⟨p1, evs1⟩ := r1
      have hrest := ih p1
      cases hm : cascadeRoots tree f rest p1 with
      | none => rw [hm] at hrest; simp at hrest
      | some r2 =>
        obtain ⟨q2, evs2⟩ := r2
        simp only [hvr, hm]
        rfl

theorem cascadeRoots_nodup (tree : BranchTree) (f : MergeFn) :
    ∀ rs p p2 evs, p.Nodup → cascadeRoots tree f rs p = some (p2, evs) → p2.Nodup := by
  intro rs
  induction rs with
  | nil =>
    intro p p2 evs hp h
    simp only [cascadeRoots, Option.some.injEq, Prod.mk.injEq] at h
    exact h.1 ▸ hp
  | cons r rest ih =>
    intro p p2 evs hp h
    unfold cascadeRoots at h
    cases hv : mergeRecursive tree f (cascadeFuel tree) r p with
    | none => rw [hv] at h; simp at h
    | some r1 =>
      obtain ⟨p1, evs1⟩ := r1
      simp only [hv] at h
      cases hm : cascadeRoots tree f rest p1 with
      | none => rw [hm] at h; simp at h
      | some r2 =>
        obtain ⟨q2, evs2⟩ := r2
        simp only [hm, Option.some.injEq, Prod.mk.injEq] at h
        exact h.1 ▸ ih p1 q2 evs2
          (mergeRecursive_nodup tree f (cascadeFuel tree) r p p1 evs1 hp hv) hm

theorem cascadeRoots_sound (tree : BranchTree) (f : MergeFn) :
    ∀ rs p p2 evs, cascadeRoots tree f rs p = some (p2, evs) →
      ∀ x ∈ p2, x ∈ p ∨ ∃ r ∈ rs, Reaches tree r x := by
  intro rs
  induction rs with
  | nil =>
    intro p p2 evs h x hx
    simp only [cascadeRoots, Option.some.injEq, Prod.mk.injEq] at h
    exact Or.inl (h.1 ▸ hx)
  | cons r rest ih =>
    intro p p2 evs h x hx
    unfold cascadeRoots at h
    cases hv : mergeRecursive tree f (cascadeFuel tree) r p with
    | none => rw [hv] at h; simp at h
    | some r1 =>
      obtain ⟨p1, evs1⟩ := r1
      simp only [hv] at h
      cases hm : cascadeRoots tree f rest p1 with
      | none => rw [hm] at h; simp at h
      | some r2 =>
        obtain ⟨q2, evs2⟩ := r2
        simp only [hm, Option.some.injEq, Prod.mk.injEq] at h
        rcases ih p1 q2 evs2 hm x (h.1 ▸ hx) with h1 | ⟨d, hd, hreach⟩
        · rcases mergeRecursive_sound tree f (cascadeFuel tree) r p p1 evs1 hv x h1
            with h2 | h2
          · exact Or.inl h2
          · exact Or.inr ⟨r, List.mem_cons_self r rest, h2⟩
        · exact Or.inr ⟨d, List.mem_cons_of_mem r hd, hreach⟩

theorem cascadeRoots_closed (tree : BranchTree) (f : MergeFn) :
    ∀ rs p p2 evs, cascadeRoots tree f rs p = some (p2, evs) →
      (∀ x ∈ p2, x ∈ p ∨ ∀ y ∈ childrenOf tree x, y ∈ p2) ∧ ∀ r ∈ rs, r ∈ p2 := by
  intro rs
  induction rs with
  | nil =>
    intro p p2 evs h
    simp only [cascadeRoots, Option.some.injEq, Prod.mk.injEq] at h
    exact ⟨fun x hx => Or.inl (h.1 ▸ hx), fun r hr => absurd hr (by simp)⟩
  | cons r rest ih =>
    intro p p2 evs h
    unfold cascadeRoots at h
    cases hv : mergeRecursive tree f (cascadeFuel tree) r p with
    | none => rw [hv] at h; simp at h
    | some r1 =>
      obtain ⟨p1, evs1⟩ := r1
      simp only [hv] at h
      cases hm : cascadeRoots tree f rest p1 with
      | none => rw [hm] at h; simp at h
      | some r2 =>
        obtain ⟨q2, evs2⟩ := r2
        simp only [hm, Option.some.injEq, Prod.mk.injEq] at h
        obtain ⟨hq2, _⟩ := h
        subst hq2
        have hrest := ih p1 q2 evs2 hm
        have hsub : p1 ⊆ q2 := cascadeRoots_subset tree f rest p1 q2 evs2 hm
        constructor
        · intro x hx
          rcases hrest.1 x hx with h1 | h1
          · rcases mergeRecursive_closed tree f (cascadeFuel tree) r p p1 evs1 hv x h1
              with h2 | h2
            · exact Or.inl h2
            · exact Or.inr (fun y hy => hsub (h2 y hy))
          · exact Or.inr h1
        · intro d hd
          rcases List.mem_cons.mp hd with h1 | h1
          · exact h1 ▸ hsub (mergeRecursive_mem_self tree f (cascadeFuel tree) r p p1 evs1 hv)
          · exact hrest.2 d h1

theorem cascadeRoots_filter (tree : BranchTree) (f : MergeFn) :
    ∀ rs p p2 evs, cascadeRoots tree f rs p = some (p2, evs) →
      ∀ s, evs.filter (fun e => e.src == s) =
        if s ∈ p2 ∧ s ∉ p then (childrenOf tree s).map (fun d => mkEv f s d) else [] := by
  intro rs
  induction rs with
  | nil =>
    intro p p2 evs h s
    simp only [cascadeRoots, Option.some.injEq, Prod.mk.injEq] at h
    obtain ⟨hp, hevs⟩ := h
    subst hp
    subst hevs
    rw [List.filter_nil, if_neg (fun hh => hh.2 hh.1)]
  | cons r rest ih =>
    intro p p2 evs h s
    unfold cascadeRoots at h
    cases hv : mergeRecursive tree f (cascadeFuel tree) r p with
    | none => rw [hv] at h; simp at h
    | some r1 =>
      obtain ⟨p1, evs1⟩ := r1
      simp only [hv] at h
      cases hm : cascadeRoots tree f rest p1 with
      | none => rw [hm] at h; simp at h
      | some r2 =>
        obtain ⟨q2, evs2⟩ := r2
        simp only [hm, Option.some.injEq, Prod.mk.injEq] at h
        obtain ⟨hq2, hevs⟩ := h
        subst hq2
        subst hevs
        have hp1 : p ⊆ p1 := mergeRecursive_subset tree f (cascadeFuel tree) r p p1 evs1 hv
        have hp2 : p1 ⊆ q2 := cascadeRoots_subset tree f rest p1 q2 evs2 hm
        have h1 := mergeRecursive_filter tree f (cascadeFuel tree) r p p1 evs1 hv s
        have h2 := ih p1 q2 evs2 hm s
        rw [List.filter_append]
        by_cases hsp1 : s ∈ p1
        · by_cases hsp : s ∈ p
          · have h1z : evs1.filter (fun e => e.src == s) = [] := by
              rw [h1, if_neg (fun hh => hh.2 hsp)]
            have h2z : evs2.filter (fun e => e.src == s) = [] := by
              rw [h2, if_neg (fun hh => hh.2 hsp1)]
            rw [h1z, h2z, if_neg (fun hh => hh.2 hsp)]
            rfl
          · have h1c : evs1.filter (fun e => e.src == s)
                = (childrenOf tree s).map (fun d => mkEv f s d) := by
              rw [h1, if_pos ⟨hsp1, hsp⟩]
            have h2z : evs2.filter (fun e => e.src == s) = [] := by
              rw [h2, if_neg (fun hh => hh.2 hsp1)]
            rw [h1c, h2z, if_pos ⟨hp2 hsp1, hsp⟩]
            simp
        · have hsp : s ∉ p := fun hh => hsp1 (hp1 hh)
          have h1z : evs1.filter (fun e => e.src == s) = [] := by
            rw [h1, if_neg (fun hh => hsp1 hh.1)]
          by_cases hsq2 : s ∈ q2
          · rw [if_pos ⟨hsq2, hsp1⟩] at h2
            rw [h1z, h2, if_pos ⟨hsq2, hsp⟩]
            rfl
          · rw [if_neg (fun hh => hsq2 hh.1)] at h2
            rw [h1z, h2, if_neg (fun hh => hsq2 hh.1)]
            rfl

theorem cascadeRoots_proj_eq (tree : BranchTree) (f g : MergeFn) :
    ∀ rs p, projEdges (cascadeRoots tree f rs p) = projEdges (cascadeRoots tree g rs p) := by
  intro rs
  induction rs with
  | nil => intro p; rfl
  | cons r rest ih =>
    intro p
    unfold cascadeRoots
    have h1 := mergeRecursive_proj_eq tree f g (cascadeFuel tree) r p
    cases hvF : mergeRecursive tree f (cascadeFuel tree) r p with
    | none =>
      rw [hvF] at h1
      cases hvG : mergeRecursive tree g (cascadeFuel tree) r p with
      | none => rfl
      | some rG => rw [hvG] at h1; simp [projEdges] at h1
    | some rF =>
      obtain ⟨pF, eF⟩ := rF
      rw [hvF] at h1
      cases hvG : mergeRecursive tree g (cascadeFuel tree) r p with
      | none => rw [hvG] at h1; simp [projEdges] at h1
      | some rG =>
        obtain ⟨pG, eG⟩ := rG
        rw [hvG] at h1
        have h1' : (pF, edgesOf eF) = (pG, edgesOf eG) := by
          simpa [projEdges] using h1
        have hpeq : pF = pG := congrArg Prod.fst h1'
        have heq : edgesOf eF = edgesOf eG := congrArg Prod.snd h1'
        subst hpeq
        have h2 := ih pF
        cases hmF : cascadeRoots tree f rest pF with
        | none =>
          rw [hmF] at h2
          cases hmG : cascadeRoots tree g rest pF with
          | none => simp only [hmF, hmG]
          | some r2G => rw [hmG] at h2; simp [projEdges] at h2
        | some r2F =>
          obtain ⟨p2F, e2F⟩ := r2F
          rw [hmF] at h2
          cases hmG : cascadeRoots tree g rest pF with
          | none => rw [hmG] at h2; simp [projEdges] at h2
          | some r2G =>
            obtain ⟨p2G, e2G⟩ := r2G
            rw [hmG] at h2
            have h2' : (p2F, edgesOf e2F) = (p2G, edgesOf e2G) := by
              simpa [projEdges] using h2
            have hp2 : p2F = p2G := congrArg Prod.fst h2'
            have he2 : edgesOf e2F = edgesOf e2G := congrArg Prod.snd h2'
            subst hp2
            simp only [hmF, hmG, projEdges, Option.map_some', Option.some.injEq,
              Prod.mk.injEq]
            refine ⟨trivial, ?_⟩
            simp only [edgesOf] at heq he2
            simp only [edgesOf, List.map_append]
            rw [heq, he2]

theorem mem_of_reaches_closed (tree : BranchTree) {p : List String}
    (hclosed : ∀ x ∈ p, ∀ y ∈ childrenOf tree x, y ∈ p) {r x : String}
    (hr : r ∈ p) (hx : Reaches tree r x) : x ∈ p := by
  induction hx with
  | refl => exact hr
  | tail _ hstep ih => exact hclosed _ ih _ hstep

/-- Structured trace of the user-visible actions of `handle_cascade`:
confirmation prompts (with the answer given), detection runs (with their
result), and attempted merges. -/
inductive CmdEvent where
  | askedTry (s : BranchRelationStrategy) (ans : Bool)
  | askedSetDefault (ans : Bool)
  | askedProceed (ans : Bool)
  | detected (s : BranchRelationStrategy) (t : BranchTree)
  | merged (src dst : String) (ok : Bool)
deriving DecidableEq, Repr

/-- The `{:?}` rendering of a strategy, as interpolated into the prompt. -/
def strategyDebugName : BranchRelationStrategy → String
  | .commitHistory => "CommitHistory"
  | .creationTime => "CreationTime"
  | .defaultRoot => "DefaultRoot"
  | .manual => "Manual"

/-- The prompt `format!("Try with {:?} strategy?", alt_strategy)`. -/
def tryMsg (s : BranchRelationStrategy) : String :=
  "Try with " ++ strategyDebugName s ++ " strategy?"

def setDefaultMsg : String := "Set this as your default strategy?"

def proceedMsg : String := "Proceed with merges?"

def cancelledMsg : String := "Merge operation cancelled"

/-- Marker for the modelling-only fuel exhaustion case of the cascade
phase; proved unreachable. -/
def fuelExhaustedMsg : String := "cascade fuel exhausted"

/-- The collaborators of `handle_cascade`: detection (repository and
configuration fixed), the interactive prompt, the merge primitive, and the
configured strategy. -/
structure CascadeEnv where
  detect : BranchRelationStrategy → Except GitFlowErrorM BranchTree
  prompt : String → Bool
  mergeFn : MergeFn
  configStrategy : BranchRelationStrategy

/-- The fixed alternative order tried by the fallback
(`src/commands/cascade.rs:60`). -/
def fallbackAlternatives : List BranchRelationStrategy :=
  [.creationTime, .defaultRoot, .manual]

/-- The fallback loop of `handle_cascade` (`src/commands/cascade.rs:66`):
for each alternative, skip it when it equals the CURRENT strategy variable
(which is reassigned on consent, before detection), ask consent, re-run
detection, stop at the first non-empty tree (offering to persist the
winning strategy), otherwise continue with the alternative as the new
current strategy. -/
def fallback_loop (env : CascadeEnv) :
    List BranchRelationStrategy → BranchRelationStrategy → BranchTree → List CmdEvent →
      Except GitFlowErrorM (BranchRelationStrategy × BranchTree × List CmdEvent)
  | [], cur, tree, evs => .ok (cur, tree, evs)
  | alt :: rest, cur, tree, evs =>
    if alt = cur then fallback_loop env rest cur tree evs
    else
      if env.prompt (tryMsg alt) then
        match env.detect alt with
        | .error e => .error e
        | .ok t =>
          if t.isEmpty then
            fallback_loop env rest alt t
              (evs ++ [CmdEvent.askedTry alt true, CmdEvent.detected alt t])
          else
            .ok (alt, t,
              evs ++ [CmdEvent.askedTry alt true, CmdEvent.detected alt t,
                CmdEvent.askedSetDefault (env.prompt setDefaultMsg)])
      else fallback_loop env rest cur tree (evs ++ [CmdEvent.askedTry alt false])

/-- The merge phase of `handle_cascade` (`src/commands/cascade.rs:109`). -/
def cascadePhase (tree : BranchTree) (f : MergeFn) (evs : List CmdEvent) :
    Except GitFlowErrorM Unit × List CmdEvent :=
  match runCascade tree f with
  | none => (.error (.git fuelExhaustedMsg), evs)
  | some r =>
    (.ok (), evs ++ r.2.map (fun e => CmdEvent.merged e.src e.dst e.succeeded))

/-- `handle_cascade` from `src/commands/cascade.rs:37`: resolve the
strategy (CLI option overrides configuration), detect, fall back to the
alternative strategies when the tree is empty and no strategy was pinned,
succeed immediately on an empty tree, otherwise confirm (unless `--yes`)
and run the cascade, which always reports success once traversal
completes. -/
def handle_cascade (env : CascadeEnv) (yes : Bool)
    (strategy_opt : Option BranchRelationStrategy) :
    Except GitFlowErrorM Unit × List CmdEvent :=
  let strategy := match strategy_opt with
    | some s => s
    | none => env.configStrategy
  match env.detect strategy with
  | .error e => (.error e, [])
  | .ok tree0 =>
    match
      (if tree0.isEmpty && strategy_opt.isNone then
        fallback_loop env fallbackAlternatives strategy tree0
          [CmdEvent.detected strategy tree0]
      else .ok (strategy, tree0, [CmdEvent.detected strategy tree0])) with
    | .error e => (.error e, [CmdEvent.detected strategy tree0])
    | .ok (_, tree1, evs1) =>
      if tree1.isEmpty then (.ok (), evs1)
      else
        if yes then cascadePhase tree1 env.mergeFn evs1
        else
          if env.prompt proceedMsg then
            cascadePhase tree1 env.mergeFn (evs1 ++ [CmdEvent.askedProceed true])
          else
            (.error (.aborted cancelledMsg), evs1 ++ [CmdEvent.askedProceed false])

theorem cascadePhase_ok (tree : BranchTree) (f : MergeFn) (evs : List CmdEvent) :
    (cascadePhase tree f evs).1 = .ok () := by
  unfold cascadePhase
  have h := cascadeRoots_isSome tree f (find_root_branches tree) []
  cases hr : runCascade tree f with
  | none =>
    unfold runCascade at hr
    rw [hr] at h
    simp at h
  | some r => simp [hr]

def mergeFailedMsg : String := "merge failed"

/-- A merge primitive for which every single merge fails. -/
def failingMerge : MergeFn := fun _ _ => .error (.aborted mergeFailedMsg)

/-- C3: merge failures never affect the traversal or the command result.
The cascade phase always completes; the processed set and the list of
attempted edges are identical for any two merge functions (in particular
one for which every merge fails); and once the merge phase is reached
(strategy pinned, detection succeeded, cascade confirmed or bypassed with
the yes flag) `handle_cascade` reports success regardless of merge
outcomes. -/
theorem cascade_tolerates_merge_failures (tree : BranchTree) (f g : MergeFn) :
    (runCascade tree f).isSome = true ∧
    projEdges (runCascade tree f) = projEdges (runCascade tree g) ∧
    (∀ (env : CascadeEnv) (yes : Bool) (s : BranchRelationStrategy) (tree1 : BranchTree),
      env.detect s = .ok tree1 →
      (yes = true ∨ env.prompt proceedMsg = true) →
      (handle_cascade env yes (some s)).1 = .ok ()) := by
  refine ⟨cascadeRoots_isSome tree f (find_root_branches tree) [],
    cascadeRoots_proj_eq tree f g (find_root_branches tree) [], ?_⟩
  intro env yes s tree1 hdet hyes
  unfold handle_cascade
  simp only [hdet, Option.isNone_some, Bool.and_false, Bool.false_eq_true, if_false]
  by_cases htree : tree1.isEmpty
  · simp only [htree, if_true]
  · simp only [htree, Bool.false_eq_true, if_false]
    rcases hyes with hy | hp
    · subst hy
      simp only [if_true]
      exact cascadePhase_ok tree1 env.mergeFn _
    · cases yes with
      | true =>
        simp only [if_true]
        exact cascadePhase_ok tree1 env.mergeFn _
      | false =>
        simp only [Bool.false_eq_true, if_false, hp, if_true]
        exact cascadePhase_ok tree1 env.mergeFn _

/-- Witness for `cascade_tolerates_merge_failures`: with a one-edge tree
and a merge primitive that always fails, the command still succeeds. -/
theorem cascade_tolerates_merge_failures_witness :
    (handle_cascade
      { detect := fun _ => .ok [(bMain, [bFeatureA])], prompt := fun _ => true,
        mergeFn := failingMerge, configStrategy := .commitHistory }
      true (some .commitHistory)).1 = .ok () :=
  (cascade_tolerates_merge_failures [(bMain, [bFeatureA])] failingMerge failingMerge).2.2
    { detect := fun _ => .ok [(bMain, [bFeatureA])], prompt := fun _ => true,
      mergeFn := failingMerge, configStrategy := .commitHistory }
    true .commitHistory [(bMain, [bFeatureA])] rfl (Or.inl rfl)

/-- C4: one cascade run uses each branch as a merge source at most once and
visits exactly the branches reachable from the roots: the final processed
set has no duplicates, membership in it is equivalent to reachability from
some detected root, and for every branch `s` the attempted merge events
with source `s` are exactly one event per child of `s` (in child-list
order) when `s` was visited, and none otherwise — even for trees with
cycles or sharing. -/
theorem cascade_visits_each_reachable_once (tree : BranchTree) (f : MergeFn)
    (p2 : List String) (evs : List MergeEvent)
    (h : runCascade tree f = some (p2, evs)) :
    p2.Nodup ∧
    (∀ x, x ∈ p2 ↔ ∃ r ∈ find_root_branches tree, Reaches tree r x) ∧
    (∀ s, evs.filter (fun e => e.src == s) =
      if s ∈ p2 then (childrenOf tree s).map (fun d => mkEv f s d) else []) := by
  unfold runCascade at h
  have hclosed := cascadeRoots_closed tree f (find_root_branches tree) [] p2 evs h
  refine ⟨cascadeRoots_nodup tree f (find_root_branches tree) [] p2 evs List.nodup_nil h,
    ?_, ?_⟩
  · intro x
    constructor
    · intro hx
      rcases cascadeRoots_sound tree f (find_root_branches tree) [] p2 evs h x hx
        with h1 | h1
      · exact absurd h1 (by simp)
      · exact h1
    · rintro ⟨r, hr, hreach⟩
      refine mem_of_reaches_closed tree ?_ (hclosed.2 r hr) hreach
      intro x hx y hy
      rcases hclosed.1 x hx with h1 | h1
      · exact absurd h1 (by simp)
      · exact h1 y hy
  · intro s
    have hflt := cascadeRoots_filter tree f (find_root_branches tree) [] p2 evs h s
    rw [hflt]
    by_cases hs : s ∈ p2
    · rw [if_pos ⟨hs, by simp⟩, if_pos hs]
    · rw [if_neg (fun hh => hs hh.1), if_neg hs]

/-- Witness for `cascade_visits_each_reachable_once` on the one-edge tree
with the always-failing merge primitive. -/
theorem cascade_visits_each_reachable_once_witness :
    ([bFeatureA, bMain] : List String).Nodup :=
  (cascade_visits_each_reachable_once [(bMain, [bFeatureA])] failingMerge
    [bFeatureA, bMain] [mkEv failingMerge bMain bFeatureA] (by rfl)).1

/-- The alternatives for which consent was requested, in trace order. -/
def askedOf (evs : List CmdEvent) : List BranchRelationStrategy :=
  evs.filterMap (fun e => match e with
    | CmdEvent.askedTry a _ => some a
    | _ => none)

/-- The detection runs recorded in the trace, in order. -/
def detectedOf (evs : List CmdEvent) : List (BranchRelationStrategy × BranchTree) :=
  evs.filterMap (fun e => match e with
    | CmdEvent.detected a t => some (a, t)
    | _ => none)

theorem fallback_loop_all_declined (env : CascadeEnv)
    (hdecl : ∀ a, env.prompt (tryMsg a) = false) :
    ∀ alts cur tree evs,
      fallback_loop env alts cur tree evs =
        .ok (cur, tree, evs ++ (alts.filter (fun a => a ≠ cur)).map
          (fun a => CmdEvent.askedTry a false)) := by
  intro alts
  induction alts with
  | nil => intro cur tree evs; simp [fallback_loop]
  | cons alt rest ih =>
    intro cur tree evs
    unfold fallback_loop
    by_cases hac : alt = cur
    · rw [if_pos hac, ih]
      simp [List.filter_cons, hac]
    · rw [if_neg hac]
      simp only [hdecl alt, Bool.false_eq_true, if_false]
      rw [ih]
      simp [List.filter_cons, hac, List.append_assoc]

theorem fallback_loop_prefix (env : CascadeEnv) :
    ∀ alts cur tree evs s1 t1 evs1,
      fallback_loop env alts cur tree evs = .ok (s1, t1, evs1) →
      ∃ ext, evs1 = evs ++ ext := by
  intro alts
  induction alts with
  | nil =>
    intro cur tree evs s1 t1 evs1 h
    simp only [fallback_loop, Except.ok.injEq, Prod.mk.injEq] at h
    exact ⟨[], by simp [← h.2.2]⟩
  | cons alt rest ih =>
    intro cur tree evs s1 t1 evs1 h
    unfold fallback_loop at h
    by_cases hac : alt = cur
    · rw [if_pos hac] at h
      exact ih cur tree evs s1 t1 evs1 h
    · rw [if_neg hac] at h
      by_cases hp : env.prompt (tryMsg alt) = true
      · simp only [hp, if_true] at h
        cases hd : env.detect alt with
        | error e => rw [hd] at h; simp at h
        | ok t =>
          simp only [hd] at h
          by_cases hte : t.isEmpty
          · rw [if_pos hte] at h
            obtain ⟨ext, hext⟩ := ih alt t _ s1 t1 evs1 h
            exact ⟨_, by rw [hext, List.append_assoc]⟩
          · rw [if_neg hte] at h
            simp only [Except.ok.injEq, Prod.mk.injEq] at h
            exact ⟨_, h.2.2.symm⟩
      · simp only [hp, if_false] at h
        obtain ⟨ext, hext⟩ := ih cur tree _ s1 t1 evs1 h
        exact ⟨_, by rw [hext, List.append_assoc]⟩

theorem fallback_loop_no_merged (env : CascadeEnv) :
    ∀ alts cur tree evs s1 t1 evs1,
      fallback_loop env alts cur tree evs = .ok (s1, t1, evs1) →
      ∀ a b c, CmdEvent.merged a b c ∈ evs1 → CmdEvent.merged a b c ∈ evs := by
  intro alts
  induction alts with
  | nil =>
    intro cur tree evs s1 t1 evs1 h a b c hm
    simp only [fallback_loop, Except.ok.injEq, Prod.mk.injEq] at h
    exact h.2.2 ▸ hm
  | cons alt rest ih =>
    intro cur tree evs s1 t1 evs1 h a b c hm
    unfold fallback_loop at h
    by_cases hac : alt = cur
    · rw [if_pos hac] at h
      exact ih cur tree evs s1 t1 evs1 h a b c hm
    · rw [if_neg hac] at h
      by_cases hp : env.prompt (tryMsg alt) = true
      · simp only [hp, if_true] at h
        cases hd : env.detect alt with
        | error e => rw [hd] at h; simp at h
        | ok t =>
          simp only [hd] at h
          by_cases hte : t.isEmpty
          · rw [if_pos hte] at h
            have := ih alt t _ s1 t1 evs1 h a b c hm
            rcases List.mem_append.mp this with h1 | h1
            · exact h1
            · simp at h1
          · rw [if_neg hte] at h
            simp only [Except.ok.injEq, Prod.mk.injEq] at h
            rw [← h.2.2] at hm
            rcases List.mem_append.mp hm with h1 | h1
            · exact h1
            · simp at h1
      · simp only [hp, if_false] at h
        have := ih cur tree _ s1 t1 evs1 h a b c hm
        rcases List.mem_append.mp this with h1 | h1
        · exact h1
        · simp at h1

theorem fallback_loop_detect_consented (env : CascadeEnv) :
    ∀ alts cur tree evs s1 t1 evs1,
      fallback_loop env alts cur tree evs = .ok (s1, t1, evs1) →
      ∀ a t, CmdEvent.detected a t ∈ evs1 →
        CmdEvent.detected a t ∈ evs ∨ CmdEvent.askedTry a true ∈ evs1 := by
  intro alts
  induction alts with
  | nil =>
    intro cur tree evs s1 t1 evs1 h a t hm
    simp only [fallback_loop, Except.ok.injEq, Prod.mk.injEq] at h
    exact Or.inl (h.2.2 ▸ hm)
  | cons alt rest ih =>
    intro cur tree evs s1 t1 evs1 h a t hm
    unfold fallback_loop at h
    by_cases hac : alt = cur
    · rw [if_pos hac] at h
      exact ih cur tree evs s1 t1 evs1 h a t hm
    · rw [if_neg hac] at h
      by_cases hp : env.prompt (tryMsg alt) = true
      · simp only [hp, if_true] at h
        cases hd : env.detect alt with
        | error e => rw [hd] at h; simp at h
        | ok t0 =>
          simp only [hd] at h
          by_cases hte : t0.isEmpty
          · rw [if_pos hte] at h
            obtain ⟨ext, hext⟩ := fallback_loop_prefix env rest alt t0 _ s1 t1 evs1 h
            rcases ih alt t0 _ s1 t1 evs1 h a t hm with h1 | h1
            · rcases List.mem_append.mp h1 with h2 | h2
              · exact Or.inl h2
              · rcases List.mem_cons.mp h2 with h3 | h3
                · simp at h3
                · have h4 : CmdEvent.detected a t = CmdEvent.detected alt t0 := by
                    simpa using h3
                  refine Or.inr ?_
                  rw [hext]
                  refine List.mem_append_left _ (List.mem_append_right _ ?_)
                  simp only [CmdEvent.detected.injEq] at h4
                  simp [h4.1]
            · exact Or.inr h1
          · rw [if_neg hte] at h
            simp only [Except.ok.injEq, Prod.mk.injEq] at h
            rw [← h.2.2] at hm
            rcases List.mem_append.mp hm with h1 | h1
            · exact Or.inl h1
            · rcases List.mem_cons.mp h1 with h2 | h2
              · simp at h2
              · rcases List.mem_cons.mp h2 with h3 | h3
                · rw [CmdEvent.detected.injEq] at h3
                  refine Or.inr ?_
                  rw [← h.2.2, h3.1]
                  exact List.mem_append_right _ (by simp)
                · simp at h3
      · simp only [hp, if_false] at h
        rcases ih cur tree _ s1 t1 evs1 h a t hm with h1 | h1
        · rcases List.mem_append.mp h1 with h2 | h2
          · exact Or.inl h2
          · simp at h2
        · exact Or.inr h1

theorem fallback_loop_asked_sublist (env : CascadeEnv) :
    ∀ alts cur tree evs s1 t1 evs1,
      fallback_loop env alts cur tree evs = .ok (s1, t1, evs1) →
      ∃ asked, askedOf evs1 = askedOf evs ++ asked ∧ asked.Sublist alts := by
  intro alts
  induction alts with
  | nil =>
    intro cur tree evs s1 t1 evs1 h
    simp only [fallback_loop, Except.ok.injEq, Prod.mk.injEq] at h
    exact ⟨[], by simp [← h.2.2], List.nil_sublist []⟩
  | cons alt rest ih =>
    intro cur tree evs s1 t1 evs1 h
    unfold fallback_loop at h
    by_cases hac : alt = cur
    · rw [if_pos hac] at h
      obtain ⟨asked, ha, hs⟩ := ih cur tree evs s1 t1 evs1 h
      exact ⟨asked, ha, hs.cons alt⟩
    · rw [if_neg hac] at h
      by_cases hp : env.prompt (tryMsg alt) = true
      · simp only [hp, if_true] at h
        cases hd : env.detect alt with
        | error e => rw [hd] at h; simp at h
        | ok t0 =>
          simp only [hd] at h
          by_cases hte : t0.isEmpty
          · rw [if_pos hte] at h
            obtain ⟨asked, ha, hs⟩ := ih alt t0 _ s1 t1 evs1 h
            refine ⟨alt :: asked, ?_, hs.cons₂ alt⟩
            rw [ha]
            simp [askedOf, List.filterMap_append]
          · rw [if_neg hte] at h
            simp only [Except.ok.injEq, Prod.mk.injEq] at h
            refine ⟨[alt], ?_, (List.nil_sublist rest).cons₂ alt⟩
            rw [← h.2.2]
            simp [askedOf, List.filterMap_append]
      · simp only [hp, if_false] at h
        obtain ⟨asked, ha, hs⟩ := ih cur tree _ s1 t1 evs1 h
        refine ⟨alt :: asked, ?_, hs.cons₂ alt⟩
        rw [ha]
        simp [askedOf, List.filterMap_append]

theorem fallback_loop_first_nonempty (env : CascadeEnv) :
    ∀ alts cur tree evs s1 t1 evs1,
      tree.isEmpty = true →
      fallback_loop env alts cur tree evs = .ok (s1, t1, evs1) →
      t1.isEmpty = false →
      env.detect s1 = .ok t1 ∧
      ∃ pre, detectedOf evs1 = detectedOf evs ++ pre ++ [(s1, t1)] ∧
        ∀ q ∈ pre, q.2.isEmpty = true := by
  intro alts
  induction alts with
  | nil =>
    intro cur tree evs s1 t1 evs1 htree h ht1
    simp only [fallback_loop, Except.ok.injEq, Prod.mk.injEq] at h
    rw [← h.2.1, htree] at ht1
    simp at ht1
  | cons alt rest ih =>
    intro cur tree evs s1 t1 evs1 htree h ht1
    unfold fallback_loop at h
    by_cases hac : alt = cur
    · rw [if_pos hac] at h
      exact ih cur tree evs s1 t1 evs1 htree h ht1
    · rw [if_neg hac] at h
      by_cases hp : env.prompt (tryMsg alt) = true
      · simp only [hp, if_true] at h
        cases hd : env.detect alt with
        | error e => rw [hd] at h; simp at h
        | ok t0 =>
          simp only [hd] at h
          by_cases hte : t0.isEmpty
          · rw [if_pos hte] at h
            obtain ⟨hdet, pre, hpre, hprop⟩ := ih alt t0 _ s1 t1 evs1 hte h ht1
            refine ⟨hdet, (alt, t0) :: pre, ?_, ?_⟩
            · rw [hpre]
              simp [detectedOf, List.filterMap_append]
            · intro q hq
              rcases List.mem_cons.mp hq with h1 | h1
              · rw [h1]
                exact hte
              · exact hprop q h1
          · rw [if_neg hte] at h
            simp only [Except.ok.injEq, Prod.mk.injEq] at h
            obtain ⟨hs1, ht0, hevs⟩ := h
            refine ⟨by rw [← hs1, ← ht0]; exact hd, [], ?_, by simp⟩
            rw [← hevs, ← hs1, ← ht0]
            simp [detectedOf, List.filterMap_append]
      · simp only [hp, if_false] at h
        obtain ⟨hdet, pre, hpre, hprop⟩ := ih cur tree _ s1 t1 evs1 htree h ht1
        refine ⟨hdet, pre, ?_, hprop⟩
        rw [hpre]
        simp [detectedOf, List.filterMap_append]

theorem handle_cascade_empty_success (env : CascadeEnv) (yes : Bool)
    (hdet : env.detect env.configStrategy = .ok [])
    (s1 : BranchRelationStrategy) (t1 : BranchTree) (evs1 : List CmdEvent)
    (hfb : fallback_loop env fallbackAlternatives env.configStrategy []
      [CmdEvent.detected env.configStrategy []] = .ok (s1, t1, evs1))
    (hempty : t1.isEmpty = true) :
    handle_cascade env yes none = (.ok (), evs1) ∧
      ∀ a b c, CmdEvent.merged a b c ∉ evs1 := by
  constructor
  · unfold handle_cascade
    simp only [hdet, List.isEmpty_nil, Option.isNone_none, Bool.and_self, if_true, hfb]
    simp [hempty]
  · intro a b c hm
    have hmem := fallback_loop_no_merged env fallbackAlternatives _ _ _ _ _ _ hfb a b c hm
    simp at hmem

def envAllEmpty : CascadeEnv where
  detect := fun _ => .ok []
  prompt := fun _ => true
  mergeFn := fun _ _ => .ok ()
  configStrategy := .defaultRoot

/-- C6 counterexample: with every detection empty and every consent given,
starting from configured strategy DefaultRoot, the fallback does NOT skip
the already-tried DefaultRoot alternative: once CreationTime has been
consented to (and found empty), the mutated current-strategy variable no
longer equals DefaultRoot, so the loop asks for and re-runs detection with
the strategy that was already tried.  The run is still a successful
no-op. -/
theorem fallback_retries_already_tried_strategy :
    handle_cascade envAllEmpty true none =
      (.ok (), [CmdEvent.detected .defaultRoot [],
        CmdEvent.askedTry .creationTime true, CmdEvent.detected .creationTime [],
        CmdEvent.askedTry .defaultRoot true, CmdEvent.detected .defaultRoot [],
        CmdEvent.askedTry .manual true, CmdEvent.detected .manual []]) ∧
    CmdEvent.askedTry .defaultRoot true ∈ (handle_cascade envAllEmpty true none).2 ∧
    (.defaultRoot, ([] : BranchTree)) ∈ detectedOf ((handle_cascade envAllEmpty true none).2.drop 1) := by
  refine ⟨by rfl, by decide, by decide⟩

/-- C6 amended: the fallback loop asks the alternatives in the fixed order
CreationTime, DefaultRoot, Manual; an alternative is skipped only while it
equals the CURRENT strategy variable (so the originally-tried strategy is
skipped only until some earlier alternative is consented to — afterwards it
is asked and re-run, see `fallback_retries_already_tried_strategy`);
declining an alternative skips it without running detection; detection runs
only for consented alternatives; the loop stops at the first non-empty
result, every earlier detection during the fallback having been empty; and
when everything is declined or exhausted the command performs no merges and
returns success. -/
theorem fallback_loop_contract (env : CascadeEnv) :
    ((∀ a, env.prompt (tryMsg a) = false) →
      ∀ s0 tree evs, fallback_loop env fallbackAlternatives s0 tree evs =
        .ok (s0, tree, evs ++ (fallbackAlternatives.filter (fun a => a ≠ s0)).map
          (fun a => CmdEvent.askedTry a false))) ∧
    (∀ s0 tree evs s1 t1 evs1,
      fallback_loop env fallbackAlternatives s0 tree evs = .ok (s1, t1, evs1) →
      (∃ asked, askedOf evs1 = askedOf evs ++ asked ∧
        asked.Sublist fallbackAlternatives) ∧
      (∀ a t, CmdEvent.detected a t ∈ evs1 →
        CmdEvent.detected a t ∈ evs ∨ CmdEvent.askedTry a true ∈ evs1) ∧
      (tree.isEmpty = true → t1.isEmpty = false →
        env.detect s1 = .ok t1 ∧
        ∃ pre, detectedOf evs1 = detectedOf evs ++ pre ++ [(s1, t1)] ∧
          ∀ q ∈ pre, q.2.isEmpty = true)) ∧
    (∀ yes s1 t1 evs1,
      env.detect env.configStrategy = .ok [] →
      fallback_loop env fallbackAlternatives env.configStrategy []
        [CmdEvent.detected env.configStrategy []] = .ok (s1, t1, evs1) →
      t1.isEmpty = true →
      handle_cascade env yes none = (.ok (), evs1) ∧
        ∀ a b c, CmdEvent.merged a b c ∉ evs1) := by
  refine ⟨?_, ?_, ?_⟩
  · intro hdecl s0 tree evs
    exact fallback_loop_all_declined env hdecl fallbackAlternatives s0 tree evs
  · intro s0 tree evs s1 t1 evs1 h
    exact ⟨fallback_loop_asked_sublist env fallbackAlternatives s0 tree evs s1 t1 evs1 h,
      fallback_loop_detect_consented env fallbackAlternatives s0 tree evs s1 t1 evs1 h,
      fun htree ht1 =>
        fallback_loop_first_nonempty env fallbackAlternatives s0 tree evs s1 t1 evs1
          htree h ht1⟩
  · intro yes s1 t1 evs1 hdet hfb hempty
    exact handle_cascade_empty_success env yes hdet s1 t1 evs1 hfb hempty

def envNoConsent : CascadeEnv where
  detect := fun _ => .ok []
  prompt := fun _ => false
  mergeFn := fun _ _ => .ok ()
  configStrategy := .commitHistory

/-- Witness for `fallback_loop_contract`: when every consent is declined
and CommitHistory was the tried strategy, exactly the three alternatives
are asked (in order) and nothing is detected. -/
theorem fallback_loop_contract_witness :
    fallback_loop envNoConsent fallbackAlternatives .commitHistory [] [] =
      .ok (.commitHistory, ([] : BranchTree),
        [CmdEvent.askedTry .creationTime false, CmdEvent.askedTry .defaultRoot false,
          CmdEvent.askedTry .manual false]) := by
  have h := (fallback_loop_contract envNoConsent).1 (fun a => rfl) .commitHistory [] []
  simpa [fallbackAlternatives] using h

def detachedHeadMsg : String := "HEAD is not a branch (detached HEAD state)"

def uncommittedMsg : String := "There are uncommitted changes. Please commit or stash them first."

def findRefFailMsg : String := "reference not found"

/-- `format!("Merge conflicts detected between {} and {}. Please resolve manually.", from, to)`. -/
def conflictMsg (from_ to_ : String) : String :=
  "Merge conflicts detected between " ++ from_ ++ " and " ++ to_ ++ ". Please resolve manually."

/-- Merge-analysis outcome (`repo.merge_analysis`). -/
inductive MergeAnalysisKind where
  | upToDate
  | fastForward
  | normal
deriving DecidableEq, Repr

/-- Outcome of the backend `repo.merge(..)` call and the resulting index. -/
inductive MergeOutcome where
  | conflictError
  | otherError (msg : String)
  | indexConflicts
  | clean (newCommit : Nat)
deriving DecidableEq, Repr

/-- The repository state seen by `merge_branch` (`src/git/merge.rs`).  The
working tree / HEAD pointer is the single mutable resource; the backend
sub-operations (status, merge analysis, the merge itself) are modelled as
oracles carried in the state. -/
structure MergeRepo where
  statusTracked : List String
  statusUntracked : List String
  headBranch : Option String
  branches : List String
  refTarget : String → Nat
  analysis : String → String → MergeAnalysisKind
  outcome : String → String → MergeOutcome

/-- `get_repo_status` (`src/git/status.rs:34`): tracked entries, plus the
untracked ones when requested. -/
def get_repo_status (repo : MergeRepo) (includeUntracked : Bool) : List String :=
  repo.statusTracked ++ (if includeUntracked then repo.statusUntracked else [])

/-- `get_current_branch` (`src/git/branch.rs:53`). -/
def get_current_branch (repo : MergeRepo) : Except GitFlowErrorM String :=
  match repo.headBranch with
  | none => .error (.git detachedHeadMsg)
  | some b => .ok b

/-- `checkout_branch` (`src/git/branch.rs:445`): set HEAD to the branch. -/
def checkout_branch (repo : MergeRepo) (b : String) : Except GitFlowErrorM MergeRepo :=
  if b ∈ repo.branches then .ok { repo with headBranch := some b }
  else .error (.git revparseFailMsg)

/-- The `if original_branch != to { checkout_branch(repo, original)? }`
epilogue of `merge_branch`. -/
def restoreOriginal (repo : MergeRepo) (original to_ : String) :
    Except GitFlowErrorM MergeRepo :=
  if original ≠ to_ then checkout_branch repo original else .ok repo

/-- `merge_branch` from `src/git/merge.rs:33`: refuse to do anything while
uncommitted changes exist; then save the current branch, check out the
target, analyse, perform a fast-forward / normal merge, clean up and abort
on conflicts, and finally restore the original branch. -/
def merge_branch (repo : MergeRepo) (from_ to_ : String) :
    Except GitFlowErrorM Unit × MergeRepo :=
  if !(get_repo_status repo false).isEmpty then
    (.error (.aborted uncommittedMsg), repo)
  else
    match get_current_branch repo with
    | .error e => (.error e, repo)
    | .ok original_branch =>
      match checkout_branch repo to_ with
      | .error e => (.error e, repo)
      | .ok repo1 =>
        if from_ ∉ repo1.branches then (.error (.git findRefFailMsg), repo1)
        else
          match repo1.analysis from_ to_ with
          | .upToDate =>
            match restoreOriginal repo1 original_branch to_ with
            | .error e => (.error e, repo1)
            | .ok repo2 => (.ok (), repo2)
          | .fastForward =>
            let repo2 := { repo1 with
              refTarget := fun r => if r = to_ then repo1.refTarget from_ else repo1.refTarget r,
              headBranch := some to_ }
            match restoreOriginal repo2 original_branch to_ with
            | .error e => (.error e, repo2)
            | .ok repo3 => (.ok (), repo3)
          | .normal =>
            match repo1.outcome from_ to_ with
            | .conflictError =>
              match restoreOriginal repo1 original_branch to_ with
              | .error e => (.error e, repo1)
              | .ok repo2 => (.error (.aborted (conflictMsg from_ to_)), repo2)
            | .otherError msg => (.error (.git msg), repo1)
            | .indexConflicts =>
              match restoreOriginal repo1 original_branch to_ with
              | .error e => (.error e, repo1)
              | .ok repo2 => (.error (.aborted (conflictMsg from_ to_)), repo2)
            | .clean c =>
              let repo2 := { repo1 with
                refTarget := fun r => if r = to_ then c else repo1.refTarget r }
              match restoreOriginal repo2 original_branch to_ with
              | .error e => (.error e, repo2)
              | .ok repo3 => (.ok (), repo3)

/-- C10: when the repository has uncommitted changes (non-empty tracked
status), `merge_branch` returns the Aborted error before looking up the
current branch, checking out the target or attempting any merge, and the
repository state is returned unchanged. -/
theorem merge_branch_aborts_on_dirty_status (repo : MergeRepo) (from_ to_ : String)
    (h : get_repo_status repo false ≠ []) :
    merge_branch repo from_ to_ = (.error (.aborted uncommittedMsg), repo) := by
  unfold merge_branch
  rw [if_pos]
  simp [List.isEmpty_iff, h]

def dirtyFile : String := "file.txt"

/-- Witness for `merge_branch_aborts_on_dirty_status` at a concrete dirty
repository. -/
theorem merge_branch_aborts_on_dirty_status_witness :
    merge_branch
      { statusTracked := [dirtyFile], statusUntracked := [], headBranch := some bMain,
        branches := [bMain, bFeatureA], refTarget := fun _ => 0,
        analysis := fun _ _ => .normal, outcome := fun _ _ => .conflictError }
      bFeatureA bMain =
      (.error (.aborted uncommittedMsg),
        { statusTracked := [dirtyFile], statusUntracked := [], headBranch := some bMain,
          branches := [bMain, bFeatureA], refTarget := fun _ => 0,
          analysis := fun _ _ => .normal, outcome := fun _ _ => .conflictError }) :=
  merge_branch_aborts_on_dirty_status _ bFeatureA bMain (by simp [get_repo_status])

/-- Pure (error-free) relatedness of two resolvable branches, mirroring
`are_branches_related`: ancestry in either direction or a common ancestor
via merge-base. -/
def relatedPure (repo : GitRepo) (b1 b2 : String) : Bool :=
  match revparse repo b1, revparse repo b2 with
  | some c1, some c2 =>
    (is_descendant_of repo c1 c2 || is_descendant_of repo c2 c1)
      || (merge_base repo c1 c2).isSome
  | _, _ => false

theorem are_branches_related_eq_pure (repo : GitRepo) (b1 b2 : String)
    (h1 : (revparse repo b1).isSome = true) (h2 : (revparse repo b2).isSome = true) :
    are_branches_related repo b1 b2 = .ok (relatedPure repo b1 b2) := by
  unfold are_branches_related relatedPure
  rcases hr1 : revparse repo b1 with _ | c1
  · rw [hr1] at h1; simp at h1
  · rcases hr2 : revparse repo b2 with _ | c2
    · rw [hr2] at h2; simp at h2
    · by_cases hd : (is_descendant_of repo c1 c2 || is_descendant_of repo c2 c1) = true
      · simp [hd]
      · simp only [Bool.not_eq_true] at hd
        simp [hd]

/-- Modelled from the spec wording of the CreationTime scan: among the
older branches ordered from nearest in time to farthest, the first one that
is within the 30-day window and related becomes the parent. -/
def specParent (repo : GitRepo) (older : List (String × Int)) (child : String × Int) :
    Option String :=
  (older.find? (fun p => decide (child.2 - p.2 < thirtyDays)
    && relatedPure repo p.1 child.1)).map (fun p => p.1)

theorem findParent_spec (repo : GitRepo) (child : String × Int)
    (hc : (revparse repo child.1).isSome = true) :
    ∀ scanned, (∀ p ∈ scanned, (revparse repo p.1).isSome = true) →
      findParent repo child.1 child.2 scanned = .ok (specParent repo scanned child) := by
  intro scanned
  induction scanned with
  | nil => intro _; rfl
  | cons p older ih =>
    intro hs
    unfold findParent specParent
    by_cases hw : child.2 - p.2 < thirtyDays
    · rw [if_pos hw]
      rw [are_branches_related_eq_pure repo p.1 child.1
        (hs p (List.mem_cons_self p older)) hc]
      cases hrel : relatedPure repo p.1 child.1 with
      | true =>
        rw [List.find?_cons_of_pos]
        · rfl
        · simp [hw, hrel]
      | false =>
        rw [List.find?_cons_of_neg]
        · exact ih fun q hq => hs q (List.mem_cons_of_mem p hq)
        · simp [hrel]
    · rw [if_neg hw]
      rw [List.find?_cons_of_neg]
      · exact ih fun q hq => hs q (List.mem_cons_of_mem p hq)
      · simp [hw]

theorem childrenOf_nil (q : String) : childrenOf [] q = [] := rfl

theorem childrenOf_cons (k0 : String) (cs0 : List String) (rest : BranchTree) (q : String) :
    childrenOf ((k0, cs0) :: rest) q = if k0 = q then cs0 else childrenOf rest q := by
  unfold childrenOf
  by_cases hq : k0 = q
  · rw [List.find?_cons_of_pos _ (by simp [hq]), if_pos hq]
  · rw [List.find?_cons_of_neg _ (by simp [hq]), if_neg hq]

theorem childrenOf_treePush (k c : String) :
    ∀ (t : BranchTree) (q x : String),
      x ∈ childrenOf (treePush t k c) q ↔
        x ∈ childrenOf t q ∨ (q = k ∧ x = c) := by
  intro t
  induction t with
  | nil =>
    intro q x
    unfold treePush
    rw [childrenOf_cons, childrenOf_nil]
    by_cases hq : k = q
    · rw [if_pos hq]
      simp [hq.symm]
    · rw [if_neg hq]
      simp only [List.not_mem_nil, false_iff, false_or]
      rintro ⟨h1, _⟩
      exact hq h1.symm
  | cons hd rest ih =>
    intro q x
    rcases hd with ⟨k0, cs0⟩
    unfold treePush
    by_cases hk : k0 = k
    · rw [if_pos hk, childrenOf_cons, childrenOf_cons]
      by_cases hq : k0 = q
      · rw [if_pos hq, if_pos hq]
        have hqk : q = k := by rw [← hq, hk]
        simp [hqk]
      · rw [if_neg hq, if_neg hq]
        have hqk : ¬ (q = k) := fun hcontra => hq (by rw [hk, ← hcontra])
        simp [hqk]
    · rw [if_neg hk, childrenOf_cons, childrenOf_cons]
      by_cases hq : k0 = q
      · rw [if_pos hq, if_pos hq]
        have hqk : ¬ (q = k) := fun hcontra => hk (by rw [hq, hcontra])
        simp [hqk]
      · rw [if_neg hq, if_neg hq]
        exact ih q x

theorem insertByTime_pairwise (x : String × Int) (l : List (String × Int))
    (hl : l.Pairwise (fun a b => a.2 ≤ b.2)) :
    (insertByTime x l).Pairwise (fun a b => a.2 ≤ b.2) := by
  induction l with
  | nil => simp [insertByTime]
  | cons y ys ih =>
    rcases List.pairwise_cons.mp hl with ⟨hy, hys⟩
    unfold insertByTime
    by_cases h : y.2 ≤ x.2
    · rw [if_pos h]
      refine List.pairwise_cons.mpr ⟨?_, ih hys⟩
      intro z hz
      rcases List.mem_cons.mp ((insertByTime_perm x ys).mem_iff.mp hz) with h1 | h1
      · exact h1 ▸ h
      · exact hy z h1
    · rw [if_neg h]
      refine List.pairwise_cons.mpr ⟨?_, hl⟩
      intro z hz
      rcases List.mem_cons.mp hz with h1 | h1
      · exact h1 ▸ le_of_lt (lt_of_not_le h)
      · exact le_trans (le_of_lt (lt_of_not_le h)) (hy z h1)

theorem sortByTime_pairwise_aux (l : List (String × Int)) :
    ∀ acc, acc.Pairwise (fun a b => a.2 ≤ b.2) →
      (l.foldl (fun acc x => insertByTime x acc) acc).Pairwise (fun a b => a.2 ≤ b.2) := by
  induction l with
  | nil => intro acc hacc; exact hacc
  | cons x xs ih =>
    intro acc hacc
    simp only [List.foldl_cons]
    exact ih (insertByTime x acc) (insertByTime_pairwise x acc hacc)

/-- `sortByTime` sorts ascending by timestamp. -/
theorem sortByTime_pairwise (l : List (String × Int)) :
    (sortByTime l).Pairwise (fun a b => a.2 ≤ b.2) :=
  sortByTime_pairwise_aux l [] (by simp)

/-- The branch/time list of the CreationTime strategy, sorted ascending. -/
def ctSorted (repo : GitRepo) : List (String × Int) :=
  sortByTime (branchTimes repo)

theorem sorted_name_inj (sorted : List (String × Int))
    (hnd : (sorted.map (fun p => p.1)).Nodup)
    {i j : Nat} (hi : i < sorted.length) (hj : j < sorted.length)
    (h : (sorted.get ⟨i, hi⟩).1 = (sorted.get ⟨j, hj⟩).1) : i = j := by
  have hmi : i < (sorted.map (fun p => p.1)).length := by simpa using hi
  have hmj : j < (sorted.map (fun p => p.1)).length := by simpa using hj
  refine (@List.Nodup.getElem_inj_iff _ _ hnd _ hmi _ hmj).mp ?_
  simp only [List.getElem_map]
  simpa [List.get_eq_getElem] using h

theorem ctLoop_mem (repo : GitRepo) (sorted : List (String × Int))
    (hs : ∀ p ∈ sorted, (revparse repo p.1).isSome = true) :
    ∀ fuel i tree, ∀ t, ctLoop repo sorted fuel i tree = .ok t →
      sorted.length ≤ i + fuel →
      ∀ q x, x ∈ childrenOf t q ↔
        (x ∈ childrenOf tree q ∨
          ∃ j c, i ≤ j ∧ sorted[j]? = some c ∧
            specParent repo ((sorted.take j).reverse) c = some q ∧ x = c.1) := by
  intro fuel
  induction fuel with
  | zero =>
    intro i tree t ht hle q x
    simp only [ctLoop, Except.ok.injEq] at ht
    subst ht
    constructor
    · exact Or.inl
    · rintro (h1 | ⟨j, c, hij, hjc, _, _⟩)
      · exact h1
      · obtain ⟨hjl, _⟩ := List.getElem?_eq_some_iff.mp hjc
        omega
  | succ n ih =>
    intro i tree t ht hle q x
    unfold ctLoop at ht
    by_cases hi : i < sorted.length
    · rw [dif_pos hi] at ht
      have hscan : ∀ p ∈ (sorted.take i).reverse, (revparse repo p.1).isSome = true :=
        fun p hp => hs p (List.mem_of_mem_take (List.mem_reverse.mp hp))
      have hfp := findParent_spec repo (sorted.get ⟨i, hi⟩)
        (hs _ (List.get_mem sorted i hi)) ((sorted.take i).reverse) hscan
      rw [hfp] at ht
      cases hsp : specParent repo ((sorted.take i).reverse) (sorted.get ⟨i, hi⟩) with
      | none =>
        simp only [hsp] at ht
        have hrec := ih (i + 1) tree t ht (by omega) q x
        rw [hrec]
        constructor
        · rintro (h1 | ⟨j, c, hij, hjc, hspec, hx⟩)
          · exact Or.inl h1
          · exact Or.inr ⟨j, c, by omega, hjc, hspec, hx⟩
        · rintro (h1 | ⟨j, c, hij, hjc, hspec, hx⟩)
          · exact Or.inl h1
          · rcases Nat.eq_or_lt_of_le hij with heq | hlt
            · subst heq
              obtain ⟨hjl, hcval⟩ := List.getElem?_eq_some_iff.mp hjc
              have hceq : c = sorted.get ⟨i, hi⟩ := by
                rw [← hcval]
                simp [List.get_eq_getElem]
              rw [hceq, hsp] at hspec
              cases hspec
            · exact Or.inr ⟨j, c, by omega, hjc, hspec, hx⟩
      | some p =>
        simp only [hsp] at ht
        have hrec := ih (i + 1) (treePush tree p (sorted.get ⟨i, hi⟩).1) t ht (by omega) q x
        rw [hrec, childrenOf_treePush]
        constructor
        · rintro ((h1 | ⟨hqp, hx⟩) | ⟨j, c, hij, hjc, hspec, hx⟩)
          · exact Or.inl h1
          · refine Or.inr ⟨i, sorted.get ⟨i, hi⟩, le_refl i, ?_, ?_, hx⟩
            · simp [List.get_eq_getElem]
            · rw [hqp]
              exact hsp
          · exact Or.inr ⟨j, c, by omega, hjc, hspec, hx⟩
        · rintro (h1 | ⟨j, c, hij, hjc, hspec, hx⟩)
          · exact Or.inl (Or.inl h1)
          · rcases Nat.eq_or_lt_of_le hij with heq | hlt
            · subst heq
              obtain ⟨hjl, hcval⟩ := List.getElem?_eq_some_iff.mp hjc
              have hceq : c = sorted.get ⟨i, hi⟩ := by
                rw [← hcval]
                simp [List.get_eq_getElem]
              rw [hceq, hsp] at hspec
              have hqp : q = p := by
                have := Option.some.inj hspec
                exact this.symm
              exact Or.inl (Or.inr ⟨hqp, hceq ▸ hx⟩)
            · exact Or.inr ⟨j, c, by omega, hjc, hspec, hx⟩
    · rw [dif_neg hi] at ht
      simp only [Except.ok.injEq] at ht
      subst ht
      constructor
      · exact Or.inl
      · rintro (h1 | ⟨j, c, hij, hjc, _, _⟩)
        · exact h1
        · obtain ⟨hjl, _⟩ := List.getElem?_eq_some_iff.mp hjc
          omega

theorem creation_time_children_iff (repo : GitRepo) (t : BranchTree)
    (ht : get_branch_tree_by_creation_time repo = .ok t) :
    ∀ q x, x ∈ childrenOf t q ↔
      ∃ j c, 1 ≤ j ∧ (ctSorted repo)[j]? = some c ∧
        specParent repo (((ctSorted repo).take j).reverse) c = some q ∧ x = c.1 := by
  intro q x
  have hs : ∀ p ∈ ctSorted repo, (revparse repo p.1).isSome = true :=
    fun p hp => branchTimes_revparse repo p ((sortByTime_perm (branchTimes repo)).mem_iff.mp hp)
  have hmem := ctLoop_mem repo (ctSorted repo) hs (ctSorted repo).length 1 [] t ht
    (by omega) q x
  rw [hmem]
  constructor
  · rintro (h1 | h1)
    · rw [childrenOf_nil] at h1
      exact absurd h1 (by simp)
    · exact h1
  · exact Or.inr

/-- C7: the CreationTime strategy processes branches in ascending order of
tip-commit timestamp (the sorted list is ascending) and assigns each branch
beyond the first, as parent, the result of scanning its older neighbours
from nearest to farthest for the first related branch within the 30-day
window (`specParent`, a direct rendering of the spec sentence); a branch
with no such match appears in no children list, even if ancestry-related to
an older branch. -/
theorem creation_time_assigns_nearest_related_parent (repo : GitRepo) (hwf : RepoWF repo) :
    (ctSorted repo).Pairwise (fun a b => a.2 ≤ b.2) ∧
    ∃ t, get_branch_tree_by_creation_time repo = .ok t ∧
      ∀ i, ∀ hi : i < (ctSorted repo).length, 0 < i →
        (∀ p, specParent repo (((ctSorted repo).take i).reverse)
            ((ctSorted repo).get ⟨i, hi⟩) = some p →
          ((ctSorted repo).get ⟨i, hi⟩).1 ∈ childrenOf t p ∧
          ∀ q, ((ctSorted repo).get ⟨i, hi⟩).1 ∈ childrenOf t q → q = p) ∧
        (specParent repo (((ctSorted repo).take i).reverse)
            ((ctSorted repo).get ⟨i, hi⟩) = none →
          ∀ q, ((ctSorted repo).get ⟨i, hi⟩).1 ∉ childrenOf t q) := by
  have hs : ∀ p ∈ ctSorted repo, (revparse repo p.1).isSome = true :=
    fun p hp => branchTimes_revparse repo p ((sortByTime_perm (branchTimes repo)).mem_iff.mp hp)
  have hnd := ctSorted_names_nodup repo hwf
  obtain ⟨t, ht⟩ := ctLoop_isOk repo (ctSorted repo) hs (ctSorted repo).length 1 []
  refine ⟨sortByTime_pairwise (branchTimes repo), t, ht, ?_⟩
  have hiff := creation_time_children_iff repo t ht
  intro i hi hpos
  have hforce : ∀ q, ((ctSorted repo).get ⟨i, hi⟩).1 ∈ childrenOf t q →
      specParent repo (((ctSorted repo).take i).reverse)
        ((ctSorted repo).get ⟨i, hi⟩) = some q := by
    intro q hq
    obtain ⟨j, c, hj1, hjc, hspec, hx⟩ := (hiff q _).mp hq
    obtain ⟨hjl, hcval⟩ := List.getElem?_eq_some_iff.mp hjc
    have hji : j = i := by
      refine sorted_name_inj (ctSorted repo) hnd hjl hi ?_
      calc ((ctSorted repo).get ⟨j, hjl⟩).1 = c.1 := by rw [List.get_eq_getElem, hcval]
        _ = ((ctSorted repo).get ⟨i, hi⟩).1 := hx.symm
    subst hji
    have hceq : c = (ctSorted repo).get ⟨j, hi⟩ := by
      rw [← hcval]
      simp [List.get_eq_getElem]
    rw [← hceq]
    exact hspec
  constructor
  · intro p hp
    constructor
    · refine (hiff p _).mpr ⟨i, (ctSorted repo).get ⟨i, hi⟩, hpos, ?_, hp, rfl⟩
      simp [List.get_eq_getElem]
    · intro q hq
      have := hforce q hq
      rw [hp] at this
      exact (Option.some.inj this).symm
  · intro hnone q hq
    have := hforce q hq
    rw [hnone] at this
    cases this

/-- Witness for `creation_time_assigns_nearest_related_parent` at
`repoPair`: the scan assigns `main` as parent of `feature-a`. -/
theorem creation_time_assigns_nearest_related_parent_witness :
    bFeatureA ∈ childrenOf [(bMain, [bFeatureA])] bMain := by
  obtain ⟨-, t, ht, hchar⟩ :=
    creation_time_assigns_nearest_related_parent repoPair ⟨by decide, by decide⟩
  have hconc : get_branch_tree_by_creation_time repoPair = .ok [(bMain, [bFeatureA])] := by
    rfl
  have hteq : t = [(bMain, [bFeatureA])] := Except.ok.inj (ht.symm.trans hconc)
  have hlt : 1 < (ctSorted repoPair).length := by decide
  have h1 := ((hchar 1 hlt (by decide)).1 bMain (by rfl)).1
  rw [hteq] at h1
  exact h1

end GitFlow
